import Mathlib

/-!
Verification development for the rrtrace live-profiling visualizer.

The Rust source is embedded shallowly:
* machine integers become `Nat`, with explicit `% 2 ^ 32` (`u32cast`) where a
  Rust `as u32` truncation occurs; `usize::MAX` and `u64::MAX` are the
  concrete constant `2 ^ 64 - 1`;
* `Vec` and `VecDeque` become `List` (push_back = append, pop_front = head);
* `BTreeSet<usize>` becomes a strictly sorted `List Nat`;
* `BinaryHeap<Reverse<usize>>` becomes an ascending `List Nat` (push =
  ordered insertion, pop = head, which is the popped minimum);
* the Rust `MultiSet<u32>` (a `BTreeMap<u32, usize>` of counts) becomes a
  `List Nat` viewed as a multiset: insert = cons, remove = erase of one
  occurrence; the observable behaviour (counts) is identical;
* operations whose Rust code can panic (slice indexing out of bounds,
  `unwrap` of `None`) return `Option`, with `none` for the panic;
* GPU handles are dropped; a GPU buffer is represented by its byte size, and
  `device.limits().max_buffer_size` becomes an explicit parameter.
-/

namespace RRTrace

/-- `usize::MAX` on a 64-bit target (the `NONE` sentinel for vertex indices
in `trace_state.rs`). -/
def USIZE_MAX : Nat := 2 ^ 64 - 1

/-- `u64::MAX`, the `end_time` marker of an open `CallBox`. -/
def U64_MAX : Nat := 2 ^ 64 - 1

/-- A Rust `as u32` cast. -/
def u32cast (x : Nat) : Nat := x % 2 ^ 32

/-- `pub const VISIBLE_DURATION: u64 = 1_000_000_000 * 30;` from
`src/trace_state.rs`. -/
def VISIBLE_DURATION : Nat := 1000000000 * 30

/-- `size_of::<CallBox>()`: six `u32` fields in a `repr(C)` struct. -/
def CALLBOX_SIZE : Nat := 24

/-- The nine event kinds of `RRProfTraceEventType` (codes 0..8). -/
inductive REventType where
  | call
  | ret
  | gcStart
  | gcEnd
  | threadStart
  | threadReady
  | threadSuspended
  | threadResume
  | threadExit
deriving DecidableEq, Repr

/-- Modelled from the spec: the accessor methods `timestamp()`,
`event_type()` and `data()` of `RRProfTraceEvent` are not under `src/`
(only the raw two-word struct is, in `src/ringbuffer.rs`).  Per the spec,
word 0 is `(event_type_code << 60) | (timestamp & ((1<<60)-1))` and word 1
is the payload; we model the decoded view directly: a timestamp, an event
kind and a payload. -/
structure REvent where
  timestamp : Nat
  etype : REventType
  data : Nat
deriving DecidableEq, Repr

/-- `fn encode_time(time: u64) -> [u32; 2]` from `src/trace_state.rs`:
`[(time & 0x7fffffff) as u32, ((time >> 31) & 0xffffffff) as u32]`. -/
def encode_time (time : Nat) : Nat × Nat :=
  (time &&& 0x7fffffff, (time >>> 31) &&& 0xffffffff)

/-- The GPU-visible `CallBox` record (`src/trace_state.rs`). -/
structure CallBox where
  start_time : Nat × Nat
  end_time : Nat × Nat
  method_id : Nat
  depth : Nat
deriving DecidableEq, Repr

/-- `GpuSyncVec<T>` (`src/renderer/trace_state/gpu_sync_vec.rs`): host data,
a dirty interval, the byte sizes of the allocated GPU buffers, the device
buffer-size limit and `size_of::<T>()`. -/
structure GpuSyncVec (T : Type) where
  data : List T
  dirtyStart : Nat
  dirtyEnd : Nat
  gpuBuffer : List Nat
  maxBufferSize : Nat
  elemSize : Nat
deriving DecidableEq, Repr

namespace GpuSyncVec

/-- `GpuSyncVec::new`: empty data, empty dirty interval `usize::MAX..0`, one
buffer of `(max_buffer_size / size_of::<T>()).min(256) * size_of::<T>()`
bytes. -/
def new (T : Type) (maxBufferSize elemSize : Nat) : GpuSyncVec T :=
  { data := []
    dirtyStart := USIZE_MAX
    dirtyEnd := 0
    gpuBuffer := [min (maxBufferSize / elemSize) 256 * elemSize]
    maxBufferSize := maxBufferSize
    elemSize := elemSize }

/-- `GpuSyncVec::len`. -/
def len (v : GpuSyncVec T) : Nat := v.data.length

/-- `GpuSyncVec::get`. -/
def get? (v : GpuSyncVec T) (i : Nat) : Option T := v.data.get? i

/-- `GpuSyncVec::get_mut(i)` followed by `*slot = x`: succeeds exactly when
`i` is in range, marking `i..i+1` dirty. -/
def writeAt? (v : GpuSyncVec T) (i : Nat) (x : T) : Option (GpuSyncVec T) :=
  if i < v.data.length then
    some { v with
      data := v.data.set i x
      dirtyStart := min v.dirtyStart i
      dirtyEnd := max v.dirtyEnd (i + 1) }
  else none

/-- `GpuSyncVec::push`: append and extend the dirty interval over the new
index. -/
def push (v : GpuSyncVec T) (x : T) : GpuSyncVec T :=
  { v with
    data := v.data ++ [x]
    dirtyStart := min v.dirtyStart v.data.length
    dirtyEnd := max v.dirtyEnd (v.data.length + 1) }

/-- `GpuSyncVec::truncate`: shrink (only if strictly shorter) and clamp the
dirty end. -/
def truncate (v : GpuSyncVec T) (l : Nat) : GpuSyncVec T :=
  if l < v.data.length then
    { v with data := v.data.take l, dirtyEnd := min v.dirtyEnd l }
  else v

/-- `self.vertices[index].end_time = encode_time(at)`: an `index_mut` write
of the `end_time` field, panicking (`none`) out of range. -/
def setEndTime? (v : GpuSyncVec CallBox) (i t : Nat) : Option (GpuSyncVec CallBox) :=
  match v.data.get? i with
  | some b => v.writeAt? i { b with end_time := encode_time t }
  | none => none

/-- Rust `u64::div_ceil`. -/
def divCeil (a b : Nat) : Nat := (a + b - 1) / b

/-- The capacity-reconciliation phase of `GpuSyncVec::sync`
(gpu_sync_vec.rs lines 98-140), to be run when the dirty interval is
non-empty.  Note the translation of the chain-building branch: after an
optional `clear()` of the sole buffer, the loop `for _ in
1..required_buffer_count` pushes `required_buffer_count - 1` buffers. -/
def syncReconcile (v : GpuSyncVec T) : GpuSyncVec T :=
  let filled_buffer_len := v.maxBufferSize / v.elemSize
  let single_buffer_size_max := filled_buffer_len * v.elemSize
  match v.gpuBuffer with
  | [b] =>
    let required_size := v.data.length * v.elemSize
    if required_size > b then
      if required_size ≤ v.maxBufferSize then
        { v with
          gpuBuffer := [Nat.nextPowerOfTwo required_size]
          dirtyStart := 0
          dirtyEnd := v.data.length }
      else
        let required_buffer_count := divCeil required_size single_buffer_size_max
        let kept := if b < single_buffer_size_max then [] else [b]
        { v with
          gpuBuffer := kept ++ List.replicate (required_buffer_count - 1) single_buffer_size_max
          dirtyStart := 0
          dirtyEnd := v.data.length }
    else v
  | bufs =>
    let new_buffer_len := divCeil v.data.length filled_buffer_len
    { v with gpuBuffer := bufs ++ List.replicate (new_buffer_len - bufs.length) single_buffer_size_max }

/-- `GpuSyncVec::sync` (gpu_sync_vec.rs lines 90-187).  The upload phase has
no model-visible effect beyond resetting the dirty interval, but its slice
accesses can panic; the `if` conditions below are exactly the bounds those
accesses need (single-buffer write: `&self.data[dirty_range]`; multi-buffer
write: `&self.gpu_buffer[start_block..=end_block]`, the host-data slice,
the two `unwrap`ed chunks and the `last_chunk[..end_item]` slice). -/
def sync (v : GpuSyncVec T) : Option (GpuSyncVec T) :=
  if v.dirtyStart ≥ v.dirtyEnd then some v
  else
    let w := v.syncReconcile
    let reset : GpuSyncVec T := { w with dirtyStart := USIZE_MAX, dirtyEnd := 0 }
    match w.gpuBuffer with
    | [_] => if w.dirtyEnd ≤ w.data.length then some reset else none
    | _ =>
      let fl := w.maxBufferSize / w.elemSize
      let start_block := w.dirtyStart / fl
      let end_block := w.dirtyEnd / fl
      let end_item := w.dirtyEnd % fl
      if end_block < w.gpuBuffer.length then
        if start_block = end_block then
          if w.dirtyEnd ≤ w.data.length then some reset else none
        else
          let sliceStart := start_block * fl
          let sliceEnd := min ((end_block + 1) * fl) w.data.length
          if sliceStart ≤ sliceEnd ∧ w.dirtyEnd ≤ w.data.length then
            let chunkCount := divCeil (sliceEnd - sliceStart) fl
            if 2 ≤ chunkCount then
              let lastChunkLen := (sliceEnd - sliceStart) - (chunkCount - 1) * fl
              if end_item ≤ lastChunkLen ∨ end_item = 0 then some reset else none
            else none
          else none
      else none

end GpuSyncVec

/-- `u32::MAX`, the "no current thread" marker of `FastTrace`. -/
def U32_MAX : Nat := 2 ^ 32 - 1

/-- `FastTrace` (`src/trace_state.rs`): an ordered list of
`(thread_id, stack)` where a stack of method ids is modelled with its head
as the top (Rust pushes/pops at the end of the `SmallVec`). -/
structure FastTrace where
  thread_stacks : List (Nat × List Nat)
  current_thread : Nat
  in_gc : Bool
deriving DecidableEq, Repr

/-- `while stack.pop().is_some_and(|m| m != method_id) {}` on a
head-is-top stack: pop until the popped id equals `mid` or the stack is
empty (the matching id is popped too). -/
def popUntil (mid : Nat) : List Nat → List Nat
  | [] => []
  | m :: rest => if m = mid then rest else popUntil mid rest

/-- Insertion point of key `tid` in a strictly key-sorted association list
(the index Rust's `binary_search_by_key` reports in both the `Ok` and the
`Err` case). -/
def sortedIdx (l : List (Nat × α)) (tid : Nat) : Nat :=
  (l.takeWhile (fun p => p.1 < tid)).length

/-- Insertion at an index, `Vec::insert`. -/
def insertAt (l : List α) (i : Nat) (x : α) : List α :=
  l.take i ++ [x] ++ l.drop i

namespace FastTrace

/-- `FastTrace::new`. -/
def new : FastTrace :=
  { thread_stacks := [(0, [])], current_thread := 0, in_gc := false }

/-- One iteration of the event loop of `FastTrace::process_events`.
`self.thread_stacks[self.current_thread as usize]` panics (`none`) when the
current index is out of range (e.g. `u32::MAX` after `ThreadSuspended`). -/
def step (ft : FastTrace) (e : REvent) : Option FastTrace :=
  match e.etype with
  | .call =>
    match ft.thread_stacks.get? ft.current_thread with
    | some (tid, st) =>
      some { ft with thread_stacks := ft.thread_stacks.set ft.current_thread (tid, e.data :: st) }
    | none => none
  | .ret =>
    match ft.thread_stacks.get? ft.current_thread with
    | some (tid, st) =>
      some { ft with thread_stacks := ft.thread_stacks.set ft.current_thread (tid, popUntil e.data st) }
    | none => none
  | .threadSuspended => some { ft with current_thread := U32_MAX }
  | .threadResume =>
    let tid := u32cast e.data
    let idx := sortedIdx ft.thread_stacks tid
    let stacks1 :=
      if ft.thread_stacks.any (fun p => p.1 = tid) then ft.thread_stacks
      else insertAt ft.thread_stacks idx (tid, [])
    some { ft with thread_stacks := stacks1, current_thread := idx }
  | .threadExit =>
    let tid := u32cast e.data
    some { ft with thread_stacks := ft.thread_stacks.eraseP (fun p => decide (p.1 = tid)) }
  | _ => some ft

/-- `FastTrace::process_events`: clear `in_gc`, replay the batch, then set
`in_gc` from `events.last().unwrap()` — which panics (`none`) on an empty
batch. -/
def process_events (ft : FastTrace) (events : List REvent) : Option FastTrace := do
  let ft1 ← events.foldlM step { ft with in_gc := false }
  match events.getLast? with
  | some e => some { ft1 with in_gc := e.etype = .gcStart }
  | none => none

end FastTrace

/-- `CallStackEntry` (`src/trace_state.rs`). -/
structure CallStackEntry where
  vertex_index : Nat
  method_id : Nat
deriving DecidableEq, Repr

/-- `events.last().unwrap().timestamp()`: the batch end time, absent for an
empty batch. -/
def batchEndTime (events : List REvent) : Option Nat :=
  events.getLast?.map (·.timestamp)

/-- `current_vertices[i].end_time = encode_time(t)` on a plain `Vec`
(`SlowTrace`), panicking out of range. -/
def setEnd? (vs : List CallBox) (i t : Nat) : Option (List CallBox) :=
  match vs.get? i with
  | some b => some (vs.set i { b with end_time := encode_time t })
  | none => none

/-- The `Return` pop loop of `SlowTrace::trace` (head-is-top stack): pop,
unconditionally finalize the popped frame's box at `t`, stop at the
matching method id. -/
def slowReturnLoop (t mid : Nat) : List CallStackEntry → List CallBox →
    Option (List CallStackEntry × List CallBox)
  | [], vs => some ([], vs)
  | f :: rest, vs =>
    match setEnd? vs f.vertex_index t with
    | some vs1 => if f.method_id = mid then some (rest, vs1) else slowReturnLoop t mid rest vs1
    | none => none

/-- Finalize every frame's box at `t` (the shared loop body of `GCStart`
and `ThreadSuspended` in `SlowTrace::trace`), iterating bottom-first. -/
def setEnds? (t : Nat) : List CallStackEntry → List CallBox → Option (List CallBox)
  | [], vs => some vs
  | f :: rest, vs => (setEnd? vs f.vertex_index t).bind (setEnds? t rest)

/-- The reopening loop shared by the initial materialization (lines
126-135) and the `GCEnd` handler of `SlowTrace::trace`: walk the stack
bottom-first (input is the reversed, bottom-first stack, `d` the depth of
its head), append a fresh box `{start = t, end = endt}` per frame and point
the frame at it. -/
def slowReopen (t endt : Nat) : List CallStackEntry → Nat → List CallBox →
    List CallStackEntry × List CallBox
  | [], _, vs => ([], vs)
  | f :: rest, d, vs =>
    let idx := vs.length
    let vs1 := vs ++ [⟨encode_time t, encode_time endt, u32cast f.method_id, u32cast d⟩]
    let (rest1, vs2) := slowReopen t endt rest (d + 1) vs1
    (({ f with vertex_index := idx }) :: rest1, vs2)

/-- The replay state of `SlowTrace::trace`: the per-thread work items, the
index of the current thread (`none` when the current pointers refer to the
local `null_vec`s) and the null vectors themselves. -/
structure SlowState where
  threads : List (Nat × List CallStackEntry × List CallBox)
  cur : Option Nat
  nullStack : List CallStackEntry
  nullVerts : List CallBox
deriving DecidableEq, Repr

namespace SlowState

/-- Read through the current stack/vertex pointers. -/
def current (s : SlowState) : List CallStackEntry × List CallBox :=
  match s.cur with
  | some i =>
    match s.threads.get? i with
    | some (_, st, vs) => (st, vs)
    | none => (s.nullStack, s.nullVerts)
  | none => (s.nullStack, s.nullVerts)

/-- Write through the current stack/vertex pointers. -/
def setCurrent (s : SlowState) (st : List CallStackEntry) (vs : List CallBox) : SlowState :=
  match s.cur with
  | some i =>
    match s.threads.get? i with
    | some (tid, _, _) => { s with threads := s.threads.set i (tid, st, vs) }
    | none => { s with nullStack := st, nullVerts := vs }
  | none => { s with nullStack := st, nullVerts := vs }

end SlowState

/-- One iteration of the replay loop of `SlowTrace::trace` (lines
144-217). -/
def slowStep (end_time : Nat) (s : SlowState) (e : REvent) : Option SlowState :=
  match e.etype with
  | .call =>
    let (st, vs) := s.current
    let vertex_index := vs.length
    let depth := st.length
    some (s.setCurrent (⟨vertex_index, e.data⟩ :: st)
      (vs ++ [⟨encode_time e.timestamp, encode_time end_time, u32cast e.data, u32cast depth⟩]))
  | .ret =>
    let (st, vs) := s.current
    (slowReturnLoop e.timestamp e.data st vs).map fun (st1, vs1) => s.setCurrent st1 vs1
  | .gcStart =>
    let (st, vs) := s.current
    (setEnds? e.timestamp st.reverse vs).map fun vs1 =>
      s.setCurrent (st.map fun f => { f with vertex_index := USIZE_MAX }) vs1
  | .gcEnd =>
    let (st, vs) := s.current
    let (st1, vs1) := slowReopen e.timestamp end_time st.reverse 0 vs
    some (s.setCurrent st1.reverse vs1)
  | .threadSuspended =>
    let (st, vs) := s.current
    (setEnds? e.timestamp st.reverse vs).map fun vs1 =>
      s.setCurrent (st.map fun f => { f with vertex_index := USIZE_MAX }) vs1
  | .threadResume =>
    let tid := u32cast e.data
    let idx := sortedIdx s.threads tid
    let threads :=
      if s.threads.any (fun p => p.1 = tid) then s.threads
      else insertAt s.threads idx (tid, [], [])
    some { s with threads := threads, cur := some idx }
  | _ => some s

/-- `SlowTrace` (`src/trace_state.rs`). -/
structure SlowTrace where
  data : List (Nat × List CallStackEntry × List CallBox)
  end_time : Nat
deriving DecidableEq, Repr

/-- `SlowTrace::trace` (lines 102-222): read the batch end time from
`events.last().unwrap()` (panic on an empty batch), seed per-thread work
items from the `FastTrace` snapshot with `vertex_index = usize::MAX`,
materialize open boxes for the current thread unless `in_gc`, take the
current pointers (the `null_vec`s when `current_thread` is out of range),
then replay the batch. -/
def SlowTrace.trace (start_time : Nat) (ft : FastTrace) (events : List REvent) :
    Option SlowTrace :=
  match batchEndTime events with
  | none => none
  | some end_time =>
    let threads0 := ft.thread_stacks.map fun (tid, st) =>
      (tid, st.map (fun mid => (⟨USIZE_MAX, mid⟩ : CallStackEntry)), ([] : List CallBox))
    let threads1 :=
      if ft.in_gc then threads0
      else
        match threads0.get? ft.current_thread with
        | some (tid, st, vs) =>
          let (st1, vs1) := slowReopen start_time end_time st.reverse 0 vs
          threads0.set ft.current_thread (tid, st1.reverse, vs1)
        | none => threads0
    let cur0 := if ft.current_thread < threads1.length then some ft.current_thread else none
    (events.foldlM (slowStep end_time) ⟨threads1, cur0, [], []⟩).map fun s =>
      ⟨s.threads, end_time⟩

/-- `BinaryHeap<Reverse<usize>>::push`, on the heap modelled as an ascending
list (pop = head = minimum). -/
def heapPush (x : Nat) : List Nat → List Nat
  | [] => [x]
  | y :: ys => if x ≤ y then x :: y :: ys else y :: heapPush x ys

/-- `BTreeSet<usize>::insert`, on the set modelled as a strictly ascending
list. -/
def setInsert (x : Nat) : List Nat → List Nat
  | [] => [x]
  | y :: ys => if x < y then x :: y :: ys else if x = y then y :: ys else y :: setInsert x ys

/-- `ThreadStack` (`src/trace_state.rs`): per-thread slot recycler.  The
call stack has its head as the top; `ready_for_free_slot` and `free_depth`
are FIFOs with their head as the front. -/
structure ThreadStack where
  call_stack : List CallStackEntry
  vertices : GpuSyncVec CallBox
  ready_for_free_slot : List (Nat × Nat)
  free_slot : List Nat
  used_slot : List Nat
  visible_call_depth : List Nat
  free_depth : List (Nat × Nat)
deriving DecidableEq, Repr

namespace ThreadStack

/-- `ThreadStack::new` (the device handle becomes the buffer-size limit). -/
def new (maxBufferSize : Nat) : ThreadStack :=
  { call_stack := []
    vertices := GpuSyncVec.new CallBox maxBufferSize CALLBOX_SIZE
    ready_for_free_slot := []
    free_slot := []
    used_slot := []
    visible_call_depth := []
    free_depth := [] }

end ThreadStack

/-- The drain loop of `ThreadStack::sync_free_slot`: while the front of
`ready_for_free_slot` satisfies `exit_at + VISIBLE_DURATION < t`, pop it,
push its index onto `free_slot` and remove it from `used_slot`. -/
def drainReady (t : Nat) : List (Nat × Nat) → List Nat → List Nat →
    List (Nat × Nat) × List Nat × List Nat
  | [], free, used => ([], free, used)
  | (i, exit_at) :: rest, free, used =>
    if exit_at + VISIBLE_DURATION < t then drainReady t rest (heapPush i free) (used.erase i)
    else ((i, exit_at) :: rest, free, used)

/-- The slot allocation shared by `ThreadStack::enter` and
`ThreadStack::resume_all`: reuse the popped minimum of `free_slot` if it is
still addressable in the host vector, else append (discarding the popped
index, if any). -/
def allocSlot (v : GpuSyncVec CallBox) (free : List Nat) (vertex : CallBox) :
    Nat × GpuSyncVec CallBox × List Nat :=
  match free with
  | i :: rest =>
    match v.writeAt? i vertex with
    | some v1 => (i, v1, rest)
    | none => (v.len, v.push vertex, rest)
  | [] => (v.len, v.push vertex, [])

/-- The pop loop of `ThreadStack::exit`: pop frames, record `(depth, t)` in
`free_depth`, finalize and enqueue the slot unless the frame's
`vertex_index` is the `usize::MAX` sentinel, and stop once the popped
method id matches. -/
def exitLoop (t mid : Nat) : List CallStackEntry → GpuSyncVec CallBox →
    List (Nat × Nat) → List (Nat × Nat) →
    Option (List CallStackEntry × GpuSyncVec CallBox × List (Nat × Nat) × List (Nat × Nat))
  | [], v, fd, rd => some ([], v, fd, rd)
  | f :: rest, v, fd, rd =>
    let fd1 := fd ++ [(u32cast rest.length, t)]
    if f.vertex_index ≠ USIZE_MAX then
      match v.setEndTime? f.vertex_index t with
      | some v1 =>
        let rd1 := rd ++ [(f.vertex_index, t)]
        if f.method_id = mid then some (rest, v1, fd1, rd1)
        else exitLoop t mid rest v1 fd1 rd1
      | none => none
    else
      if f.method_id = mid then some (rest, v, fd1, rd)
      else exitLoop t mid rest v fd1 rd

/-- The finalize loop of `ThreadStack::cut_all`, iterating bottom-first
(input is the reversed call stack): `self.vertices[index]` is indexed with
no `usize::MAX` guard, so an already-cut frame panics (`none`). -/
def cutLoop (t : Nat) : List CallStackEntry → GpuSyncVec CallBox → List (Nat × Nat) →
    Option (GpuSyncVec CallBox × List (Nat × Nat))
  | [], v, rd => some (v, rd)
  | f :: rest, v, rd =>
    match v.setEndTime? f.vertex_index t with
    | some v1 => cutLoop t rest v1 (rd ++ [(f.vertex_index, t)])
    | none => none

/-- The reopen loop of `ThreadStack::resume_all`, iterating bottom-first
(input is the reversed call stack, `d` the depth of its head): allocate a
slot per frame and register it in `used_slot`. -/
def resumeLoop (t : Nat) : List CallStackEntry → Nat → GpuSyncVec CallBox → List Nat →
    List Nat → List CallStackEntry × GpuSyncVec CallBox × List Nat × List Nat
  | [], _, v, free, used => ([], v, free, used)
  | f :: rest, d, v, free, used =>
    let vertex : CallBox := ⟨encode_time t, encode_time U64_MAX, u32cast f.method_id, u32cast d⟩
    let (idx, v1, free1) := allocSlot v free vertex
    let (rest1, v2, free2, used2) := resumeLoop t rest (d + 1) v1 free1 (setInsert idx used)
    (({ f with vertex_index := idx }) :: rest1, v2, free2, used2)

/-- The drain loop of `ThreadStack::sync`: while the front of `free_depth`
satisfies `exit_at + VISIBLE_DURATION < now`, pop it and remove one
occurrence of its depth from `visible_call_depth`. -/
def drainDepth (now : Nat) : List (Nat × Nat) → List Nat → List (Nat × Nat) × List Nat
  | [], vcd => ([], vcd)
  | (d, exit_at) :: rest, vcd =>
    if exit_at + VISIBLE_DURATION < now then drainDepth now rest (vcd.erase d)
    else ((d, exit_at) :: rest, vcd)

namespace ThreadStack

/-- `ThreadStack::sync_free_slot`. -/
def sync_free_slot (s : ThreadStack) (t : Nat) : ThreadStack :=
  let (r, f, u) := drainReady t s.ready_for_free_slot s.free_slot s.used_slot
  { s with ready_for_free_slot := r, free_slot := f, used_slot := u }

/-- `ThreadStack::enter` (lines 269-294). -/
def enter (s : ThreadStack) (t enter_method_id : Nat) : ThreadStack :=
  let s1 := s.sync_free_slot t
  let depth := u32cast s1.call_stack.length
  let vertex : CallBox := ⟨encode_time t, encode_time U64_MAX, u32cast enter_method_id, depth⟩
  let (idx, v1, free1) := allocSlot s1.vertices s1.free_slot vertex
  { s1 with
    call_stack := ⟨idx, enter_method_id⟩ :: s1.call_stack
    vertices := v1
    free_slot := free1
    used_slot := setInsert idx s1.used_slot
    visible_call_depth := depth :: s1.visible_call_depth }

/-- `ThreadStack::exit` (lines 296-312). -/
def exit (s : ThreadStack) (t exit_method_id : Nat) : Option ThreadStack :=
  (exitLoop t exit_method_id s.call_stack s.vertices s.free_depth s.ready_for_free_slot).map
    fun (cs, v, fd, rd) =>
      { s with call_stack := cs, vertices := v, free_depth := fd, ready_for_free_slot := rd }

/-- `ThreadStack::cut_all` (lines 314-323): record `(depth, t)` for every
open depth, then finalize every frame's box (replacing its `vertex_index`
with `usize::MAX`). -/
def cut_all (s : ThreadStack) (t : Nat) : Option ThreadStack :=
  let fd := s.free_depth ++ (List.range s.call_stack.length).map fun d => (u32cast d, t)
  (cutLoop t s.call_stack.reverse s.vertices s.ready_for_free_slot).map fun (v, rd) =>
    { s with
      call_stack := s.call_stack.map fun f => { f with vertex_index := USIZE_MAX }
      vertices := v
      ready_for_free_slot := rd
      free_depth := fd }

/-- `ThreadStack::resume_all` (lines 325-357). -/
def resume_all (s : ThreadStack) (t : Nat) : ThreadStack :=
  let s1 := s.sync_free_slot t
  let vcd := (List.range s1.call_stack.length).foldl (fun acc d => u32cast d :: acc)
    s1.visible_call_depth
  let (cs1, v1, free1, used1) := resumeLoop t s1.call_stack.reverse 0 s1.vertices s1.free_slot
    s1.used_slot
  { s1 with
    call_stack := cs1.reverse
    vertices := v1
    free_slot := free1
    used_slot := used1
    visible_call_depth := vcd }

/-- `ThreadStack::sync` (lines 359-369): truncate the host vector to
`last(used_slot) + 1` (or 0), sync the GPU mirror, then drain expired
`free_depth` entries, decrementing `visible_call_depth`. -/
def sync (s : ThreadStack) (now : Nat) : Option ThreadStack :=
  let required_len := match s.used_slot.getLast? with | some l => l + 1 | none => 0
  let v1 := s.vertices.truncate required_len
  v1.sync.map fun v2 =>
    let (fd, vcd) := drainDepth now s.free_depth s.visible_call_depth
    { s with vertices := v2, free_depth := fd, visible_call_depth := vcd }

end ThreadStack

/-- `TraceState` (`src/trace_state.rs`): the device handle becomes the
buffer-size limit passed to new `ThreadStack`s; the thread map is a
key-sorted association list. -/
structure TraceState where
  maxBufferSize : Nat
  thread_stacks : List (Nat × ThreadStack)
  base_time : Nat
  last_thread_id : Nat
  exited_threads : List (Nat × Nat)
deriving DecidableEq, Repr

namespace TraceState

/-- `TraceState::new`. -/
def new (maxBufferSize : Nat) : TraceState :=
  { maxBufferSize := maxBufferSize
    thread_stacks := []
    base_time := 0
    last_thread_id := 0
    exited_threads := [] }

/-- Map lookup in the thread map. -/
def threadOf (ts : TraceState) (tid : Nat) : Option ThreadStack :=
  (ts.thread_stacks.find? fun p => p.1 = tid).map (·.2)

/-- The `thread_data!` macro: `entry(tid).or_insert_with(ThreadStack::new)`,
followed by applying the event's mutation to that stack. -/
def withThread (ts : TraceState) (tid : Nat) (f : ThreadStack → Option ThreadStack) :
    Option TraceState :=
  let st := (ts.threadOf tid).getD (ThreadStack.new ts.maxBufferSize)
  (f st).map fun st1 =>
    if ts.thread_stacks.any (fun p => p.1 = tid) then
      { ts with thread_stacks := ts.thread_stacks.map fun p => if p.1 = tid then (tid, st1) else p }
    else
      { ts with
        thread_stacks := insertAt ts.thread_stacks (sortedIdx ts.thread_stacks tid) (tid, st1) }

/-- One iteration of the event loop of `TraceState::process_events` (lines
411-454): update `base_time`, then dispatch on the event kind;
Call/Return/GCStart/GCEnd target `last_thread_id`, the Thread* events carry
the tid in `data`. -/
def step (ts0 : TraceState) (e : REvent) : Option TraceState :=
  let ts : TraceState := { ts0 with base_time := e.timestamp }
  match e.etype with
  | .call => withThread ts ts.last_thread_id fun st => some (st.enter e.timestamp e.data)
  | .ret => withThread ts ts.last_thread_id fun st => st.exit e.timestamp e.data
  | .gcStart => withThread ts ts.last_thread_id fun st => st.cut_all e.timestamp
  | .gcEnd => withThread ts ts.last_thread_id fun st => some (st.resume_all e.timestamp)
  | .threadSuspended => withThread ts (u32cast e.data) fun st => st.cut_all e.timestamp
  | .threadResume =>
    let tid := u32cast e.data
    withThread { ts with last_thread_id := tid } tid fun st => some (st.resume_all e.timestamp)
  | .threadExit =>
    some { ts with exited_threads := ts.exited_threads ++ [(u32cast e.data, e.timestamp)] }
  | _ => some ts

/-- `TraceState::process_events`. -/
def process_events (ts : TraceState) (events : List REvent) : Option TraceState :=
  events.foldlM step ts

end TraceState

/-- The eviction loop of `TraceState::sync`: pop fully-expired threads from
the front of `exited_threads` and remove their map entries. -/
def evictExited (base : Nat) : List (Nat × Nat) → List (Nat × ThreadStack) →
    List (Nat × Nat) × List (Nat × ThreadStack)
  | [], ths => ([], ths)
  | (tid, exited_at) :: rest, ths =>
    if base ≤ exited_at + VISIBLE_DURATION then ((tid, exited_at) :: rest, ths)
    else evictExited base rest (ths.eraseP fun p => decide (p.1 = tid))

/-- `stack.sync(base_time)` applied to every remaining thread. -/
def syncStacks (now : Nat) : List (Nat × ThreadStack) → Option (List (Nat × ThreadStack))
  | [] => some []
  | (tid, st) :: rest => do
    let st1 ← st.sync now
    let rest1 ← syncStacks now rest
    some ((tid, st1) :: rest1)

/-- `TraceState::sync` (lines 465-476). -/
def TraceState.sync (ts : TraceState) : Option TraceState :=
  let (ex, ths) := evictExited ts.base_time ts.exited_threads ts.thread_stacks
  (syncStacks ts.base_time ths).map fun ths1 =>
    { ts with exited_threads := ex, thread_stacks := ths1 }

/-- Ring size and mask (`src/ringbuffer.rs`). -/
def RING_SIZE : Nat := 65536

/-- The consumer-visible state of `RRProfEventRingBuffer`: the slot
contents, the writer block's `write_index` and the reader block
(`read_index`, `write_index_cache`).  Indices are `u64` values. -/
structure RingState (α : Type) where
  buffer : Nat → α
  writer_write_index : Nat
  read_index : Nat
  write_index_cache : Nat

/-- `RRProfEventRingBuffer::read` (ringbuffer.rs lines 33-66), for a
destination of capacity `outLen`: compute `available = write_index −
read_index` with unsigned wrap from the cached write index, refreshing the
cache from the writer block exactly when the cached value yields 0; copy
`min(available, outLen)` events starting at slot `read_index & MASK`,
splitting across the wrap boundary when needed (the second slice panics,
`none`, if it exceeds the array); store `read_index + read_len`. -/
def ringRead (s : RingState α) (outLen : Nat) : Option (Nat × List α × RingState α) :=
  let read_index := s.read_index
  let available0 := (s.write_index_cache + 2 ^ 64 - read_index) % 2 ^ 64
  let (available, cache) :=
    if available0 = 0 then
      ((s.writer_write_index + 2 ^ 64 - read_index) % 2 ^ 64, s.writer_write_index)
    else (available0, s.write_index_cache)
  let read_len := min available outLen
  let slot := read_index % RING_SIZE
  let first_part_len := RING_SIZE - slot
  let copied :=
    if read_len ≤ first_part_len then
      some ((List.range read_len).map fun i => s.buffer (slot + i))
    else
      if read_len - first_part_len ≤ RING_SIZE then
        some ((List.range first_part_len).map (fun i => s.buffer (slot + i)) ++
          (List.range (read_len - first_part_len)).map fun i => s.buffer i)
      else none
  copied.map fun c =>
    (read_len, c,
      { s with read_index := (read_index + read_len) % 2 ^ 64, write_index_cache := cache })

/-! ## Theorems -/

/-- C8: for every timestamp `t < 2^63` the split encoding
`[t & 0x7fffffff, (t >> 31) & 0xffffffff]` produced by `encode_time` is
lossless: `(hi << 31) | lo = t`. -/
theorem encode_time_lossless (t : Nat) (h : t < 2 ^ 63) :
    ((encode_time t).2 <<< 31) ||| (encode_time t).1 = t := by
  unfold encode_time
  have h1 : (0x7fffffff : Nat) = 2 ^ 31 - 1 := by norm_num
  have h2 : (0xffffffff : Nat) = 2 ^ 32 - 1 := by norm_num
  simp only [h1, h2, Nat.and_pow_two_sub_one_eq_mod, Nat.shiftRight_eq_div_pow,
    Nat.shiftLeft_eq]
  have hdiv : t / 2 ^ 31 < 2 ^ 32 := by
    rw [Nat.div_lt_iff_lt_mul (by norm_num)]
    calc t < 2 ^ 63 := h
    _ ≤ 2 ^ 32 * 2 ^ 31 := by norm_num
  rw [Nat.mod_eq_of_lt hdiv, mul_comm]
  rw [← Nat.mul_add_lt_is_or (Nat.mod_lt _ (by norm_num)) (t / 2 ^ 31)]
  exact Nat.div_add_mod t (2 ^ 31)

/-- Witness for C8 at `t = 6442450943 = 2^32 + 2^31 - 1`. -/
theorem encode_time_lossless_witness :
    ((encode_time 6442450943).2 <<< 31) ||| (encode_time 6442450943).1 = 6442450943 :=
  encode_time_lossless 6442450943 (by norm_num)

/-- C6: from a fresh `TraceState` (any device buffer limit), the batch
`[(t=100, Call, m=7), (t=200, Return, m=7)]` is attributed to thread 0
(`last_thread_id` starts at 0) and yields exactly one `CallBox` with
`start_time = encode_time 100`, `end_time = encode_time 200`, `depth = 0`,
`method_id = 7`, and an empty call stack. -/
theorem traceState_single_call (msz : Nat) :
    ((TraceState.new msz).process_events
        [⟨100, .call, 7⟩, ⟨200, .ret, 7⟩]).map
      (fun ts => (ts.threadOf 0).map fun st => (st.vertices.data, st.call_stack)) =
    some (some ([⟨encode_time 100, encode_time 200, 7, 0⟩], [])) := rfl

/-- C7: from a fresh `TraceState`, `[(100, Call, 1), (110, Call, 2),
(120, Return, 1)]` unwinds both frames: the mismatched `Return` pops frame
2 and then frame 1, leaving two `CallBox`es (methods 1 and 2) both with
`end_time = encode_time 120` and an empty call stack. -/
theorem traceState_mismatched_return (msz : Nat) :
    ((TraceState.new msz).process_events
        [⟨100, .call, 1⟩, ⟨110, .call, 2⟩, ⟨120, .ret, 1⟩]).map
      (fun ts => (ts.threadOf 0).map fun st => (st.vertices.data, st.call_stack)) =
    some (some ([⟨encode_time 100, encode_time 120, 1, 0⟩,
      ⟨encode_time 110, encode_time 120, 2, 1⟩], [])) := rfl

/-- C1 (evaluation at the failing input): in `SlowTrace::trace`, a
`ThreadResume` event only switches the current pointers — contrary to the
claim, no fresh `CallBox` is appended for the resumed thread's frames and
their `vertex_index` stays `usize::MAX`.  Snapshot: thread 5 holds one
frame (method 9), current thread index 0, not in GC; batch: a single
`ThreadResume(5)` at t = 100.  The claim predicts one box
`{start = encode 100, end = encode 100}` for thread 5 and `vertex_index =
0`; the code produces no box at all. -/
theorem slowTrace_threadResume_no_reopen :
    SlowTrace.trace 50 ⟨[(0, []), (5, [9])], 0, false⟩ [⟨100, .threadResume, 5⟩] =
    some ⟨[(0, [], []), (5, [⟨USIZE_MAX, 9⟩], [])], 100⟩ := rfl

/-- C10: both `FastTrace::process_events` and `SlowTrace::trace` evaluate
`events.last().unwrap()`; that access succeeds for every non-empty batch
and both functions panic on the empty batch. -/
theorem last_unwrap_batch_contract :
    (∀ events : List REvent, events ≠ [] → (batchEndTime events).isSome = true) ∧
    (∀ ft : FastTrace, ft.process_events [] = none) ∧
    (∀ (start_time : Nat) (ft : FastTrace), SlowTrace.trace start_time ft [] = none) := by
  refine ⟨fun events h => ?_, fun ft => rfl, fun st ft => rfl⟩
  simp [batchEndTime, Option.isSome_map]
  exact h

/-- Witness for C10 on the one-event batch `[(3, Call, 4)]` and a fresh
`FastTrace`. -/
theorem last_unwrap_batch_contract_witness :
    (batchEndTime [⟨3, .call, 4⟩]).isSome = true ∧
    FastTrace.process_events FastTrace.new [] = none ∧
    SlowTrace.trace 0 FastTrace.new [] = none :=
  ⟨last_unwrap_batch_contract.1 [⟨3, .call, 4⟩] (by simp),
    last_unwrap_batch_contract.2.1 FastTrace.new,
    last_unwrap_batch_contract.2.2 0 FastTrace.new⟩

/-- Helper for C3: the single-to-chain branch of `syncReconcile`. -/
theorem syncReconcile_chain_eq {T : Type} (v : GpuSyncVec T) (b : Nat)
    (hbuf : v.gpuBuffer = [b])
    (hb : b < v.maxBufferSize / v.elemSize * v.elemSize)
    (hreq : v.maxBufferSize < v.data.length * v.elemSize) :
    v.syncReconcile = { v with
      gpuBuffer := List.replicate
        (GpuSyncVec.divCeil (v.data.length * v.elemSize)
          (v.maxBufferSize / v.elemSize * v.elemSize) - 1)
        (v.maxBufferSize / v.elemSize * v.elemSize)
      dirtyStart := 0
      dirtyEnd := v.data.length } := by
  have hsm : v.maxBufferSize / v.elemSize * v.elemSize ≤ v.maxBufferSize :=
    Nat.div_mul_le_self _ _
  have hgt : b < v.data.length * v.elemSize := lt_of_lt_of_le hb (hsm.trans hreq.le)
  unfold GpuSyncVec.syncReconcile
  rw [hbuf]
  simp only [gt_iff_lt, if_pos hgt, if_neg (not_le.mpr hreq), if_pos hb, List.nil_append]

/-- C3: whenever the capacity reconciliation of `GpuSyncVec::sync` runs
holding a single buffer smaller than `single_max_bytes =
(max_buffer_size / sizeof T) * sizeof T` while the host data needs more
than `max_buffer_size` bytes, it discards that buffer (`clear()`) — but
the loop `for _ in 1..required_buffer_count` then builds a chain of only
`ceil(required / single_max_bytes) - 1` buffers of `single_max_bytes`
each, one fewer than the `ceil(required / single_max_bytes)` the claim
(and the spec) require; `ceil(...) ≥ 2` here, so the chain never has the
required length.  The entire host range `[0, len)` is marked dirty, as
claimed. -/
theorem gpuSyncVec_chain_off_by_one {T : Type} (v : GpuSyncVec T) (b : Nat)
    (hbuf : v.gpuBuffer = [b])
    (hb : b < v.maxBufferSize / v.elemSize * v.elemSize)
    (hreq : v.maxBufferSize < v.data.length * v.elemSize) :
    v.syncReconcile.gpuBuffer =
      List.replicate
        (GpuSyncVec.divCeil (v.data.length * v.elemSize)
          (v.maxBufferSize / v.elemSize * v.elemSize) - 1)
        (v.maxBufferSize / v.elemSize * v.elemSize) ∧
    v.syncReconcile.dirtyStart = 0 ∧
    v.syncReconcile.dirtyEnd = v.data.length ∧
    2 ≤ GpuSyncVec.divCeil (v.data.length * v.elemSize)
      (v.maxBufferSize / v.elemSize * v.elemSize) := by
  have hsm : v.maxBufferSize / v.elemSize * v.elemSize ≤ v.maxBufferSize :=
    Nat.div_mul_le_self _ _
  have h := syncReconcile_chain_eq v b hbuf hb hreq
  refine ⟨by rw [h], by rw [h], by rw [h], ?_⟩
  have hs : 0 < v.maxBufferSize / v.elemSize * v.elemSize := Nat.lt_of_le_of_lt (Nat.zero_le b) hb
  rw [GpuSyncVec.divCeil, Nat.le_div_iff_mul_le hs]
  omega

/-- Witness for C3: element size 4, device limit 8 (so `single_max = 8`),
a sole 4-byte buffer, 3 host elements (12 bytes): `ceil(12/8) = 2`, but
the chain gets `2 - 1 = 1` buffer. -/
theorem gpuSyncVec_chain_off_by_one_witness :
    (GpuSyncVec.mk [0, 0, 0] 0 3 [4] 8 4).syncReconcile.gpuBuffer =
      List.replicate 1 8 ∧
    (GpuSyncVec.mk [0, 0, 0] 0 3 [4] 8 4).syncReconcile.dirtyStart = 0 ∧
    (GpuSyncVec.mk [0, 0, 0] 0 3 [4] 8 4).syncReconcile.dirtyEnd = 3 ∧
    2 ≤ GpuSyncVec.divCeil 12 8 := by
  have h := gpuSyncVec_chain_off_by_one
    (GpuSyncVec.mk [0, 0, 0] 0 3 [4] 8 4) 4
    rfl (by norm_num) (by norm_num)
  simpa using h

/-- Helper for C9: `cutLoop` succeeds when every frame's `vertex_index` is
in range, finalizing exactly the referenced boxes and enqueueing each
`(index, t)` in iteration order. -/
theorem cutLoop_ok (t : Nat) : ∀ (l : List CallStackEntry) (v : GpuSyncVec CallBox)
    (rd : List (Nat × Nat)),
    (∀ f ∈ l, f.vertex_index < v.data.length) →
    ∃ v1 rd1, cutLoop t l v rd = some (v1, rd1) ∧
      rd1 = rd ++ l.map (fun f => (f.vertex_index, t)) ∧
      v1.data.length = v.data.length ∧
      ∀ j, v1.data.get? j =
        (if j ∈ l.map (fun f => f.vertex_index) then
          (v.data.get? j).map fun bx => { bx with end_time := encode_time t }
        else v.data.get? j)
  | [], v, rd, _ => by
    refine ⟨v, rd, rfl, by simp, rfl, fun j => by simp⟩
  | f :: rest, v, rd, h => by
    have hf : f.vertex_index < v.data.length := h f (List.mem_cons_self f rest)
    have hbx : v.data.get? f.vertex_index = some (v.data.get ⟨f.vertex_index, hf⟩) :=
      List.get?_eq_get hf
    have hset : v.setEndTime? f.vertex_index t =
        some { v with
          data := v.data.set f.vertex_index
            { v.data.get ⟨f.vertex_index, hf⟩ with end_time := encode_time t }
          dirtyStart := min v.dirtyStart f.vertex_index
          dirtyEnd := max v.dirtyEnd (f.vertex_index + 1) } := by
      simp only [GpuSyncVec.setEndTime?, hbx, GpuSyncVec.writeAt?, if_pos hf]
    have hrec := cutLoop_ok t rest
      { v with
        data := v.data.set f.vertex_index
          { v.data.get ⟨f.vertex_index, hf⟩ with end_time := encode_time t }
        dirtyStart := min v.dirtyStart f.vertex_index
        dirtyEnd := max v.dirtyEnd (f.vertex_index + 1) }
      (rd ++ [(f.vertex_index, t)])
      (by
        intro g hg
        simpa using h g (List.mem_cons_of_mem f hg))
    obtain ⟨v1, rd1, hloop, hrd, hlen, hget⟩ := hrec
    refine ⟨v1, rd1, ?_, by simp [hrd], by simpa using hlen, ?_⟩
    · rw [cutLoop, hset]
      exact hloop
    · intro j
      rw [hget j]
      by_cases hjf : j = f.vertex_index
      · subst hjf
        have hmem : f.vertex_index ∈ (f :: rest).map fun g => g.vertex_index := by
          simp
        rw [if_pos hmem]
        have hvset : (v.data.set f.vertex_index
            { v.data.get ⟨f.vertex_index, hf⟩ with end_time := encode_time t }).get?
            f.vertex_index =
            some { v.data.get ⟨f.vertex_index, hf⟩ with end_time := encode_time t } := by
          rw [List.get?_set_eq, hbx]
          rfl
        by_cases hj : f.vertex_index ∈ rest.map fun g => g.vertex_index
        · rw [if_pos hj, hvset, hbx]
          rfl
        · rw [if_neg hj, hvset, hbx]
          rfl
      · have hvset : (v.data.set f.vertex_index
            { v.data.get ⟨f.vertex_index, hf⟩ with end_time := encode_time t }).get? j =
            v.data.get? j := List.get?_set_ne _ _ (Ne.symm hjf)
        by_cases hj : j ∈ rest.map fun g => g.vertex_index
        · have hmem : j ∈ (f :: rest).map fun g => g.vertex_index := by
            simp only [List.map_cons, List.mem_cons]
            exact Or.inr hj
          rw [if_pos hj, if_pos hmem, hvset]
        · have hmem : ¬ j ∈ (f :: rest).map fun g => g.vertex_index := by
            simp only [List.map_cons, List.mem_cons]
            exact not_or.mpr ⟨hjf, hj⟩
          rw [if_neg hj, if_neg hmem]
          exact hvset

/-- C9: `ThreadStack::cut_all(t)` performs no out-of-bounds access under
the precondition that every frame's `vertex_index` is a valid index into
`vertices` (in particular not `usize::MAX`): it sets each referenced
vertex's `end_time` to `encode_time t`, enqueues `(index, t)` into
`ready_for_free_slot` (bottom-first), records `(depth, t)` in `free_depth`
for every open depth and replaces every frame's `vertex_index` with
`usize::MAX`.  Unlike `exit` there is no `vertex_index != usize::MAX`
guard, so the precondition is necessary: two consecutive `GCStart` events
on a thread with a non-empty stack reach the `vertices[usize::MAX]`
indexing and panic. -/
theorem cut_all_safety :
    (∀ (s : ThreadStack) (t : Nat),
      (∀ f ∈ s.call_stack, f.vertex_index < s.vertices.data.length) →
      (s.cut_all t).isSome = true ∧
      ∀ s1, s.cut_all t = some s1 →
        s1.call_stack = s.call_stack.map (fun f => { f with vertex_index := USIZE_MAX }) ∧
        s1.free_depth = s.free_depth ++
          (List.range s.call_stack.length).map (fun d => (u32cast d, t)) ∧
        s1.ready_for_free_slot = s.ready_for_free_slot ++
          s.call_stack.reverse.map (fun f => (f.vertex_index, t)) ∧
        ∀ j, s1.vertices.data.get? j =
          (if j ∈ s.call_stack.map (fun f => f.vertex_index) then
            (s.vertices.data.get? j).map fun bx => { bx with end_time := encode_time t }
          else s.vertices.data.get? j)) ∧
    (TraceState.new 268435456).process_events
      [⟨0, .call, 1⟩, ⟨1, .gcStart, 0⟩, ⟨2, .gcStart, 0⟩] = none := by
  refine ⟨fun s t h => ?_, rfl⟩
  obtain ⟨v1, rd1, hloop, hrd, _, hget⟩ :=
    cutLoop_ok t s.call_stack.reverse s.vertices s.ready_for_free_slot
      (by intro f hf; exact h f (List.mem_reverse.mp hf))
  constructor
  · rw [ThreadStack.cut_all, hloop]
    rfl
  · intro s1 hs1
    rw [ThreadStack.cut_all, hloop] at hs1
    simp only [Option.map_some', Option.some.injEq] at hs1
    subst hs1
    refine ⟨rfl, rfl, by simpa using hrd, fun j => ?_⟩
    rw [hget j]
    by_cases hj : j ∈ s.call_stack.map fun f => f.vertex_index
    · rw [if_pos (by simpa using hj), if_pos hj]
    · rw [if_neg (by simpa using hj), if_neg hj]

/-- Witness for C9: a one-frame stack whose `vertex_index` 0 points at the
single vertex; `cut_all` succeeds there. -/
theorem cut_all_safety_witness :
    (((ThreadStack.new 0).enter 5 7).cut_all 9).isSome = true :=
  (cut_all_safety.1 ((ThreadStack.new 0).enter 5 7) 9 (by decide)).1

/-- Helper for C5: the two-slice copy of `ringRead` equals the uniform
modular copy `buffer[(read_index + i) & MASK]`, for `n ≤ RING_SIZE`. -/
theorem ring_copied_eq {α : Type} (read n : Nat) (buffer : Nat → α) (hn : n ≤ RING_SIZE) :
    (if n ≤ RING_SIZE - read % RING_SIZE then
      some ((List.range n).map fun i => buffer (read % RING_SIZE + i))
    else if n - (RING_SIZE - read % RING_SIZE) ≤ RING_SIZE then
      some ((List.range (RING_SIZE - read % RING_SIZE)).map
          (fun i => buffer (read % RING_SIZE + i)) ++
        (List.range (n - (RING_SIZE - read % RING_SIZE))).map fun i => buffer i)
    else none) = some ((List.range n).map fun i => buffer ((read + i) % RING_SIZE)) := by
  have hslot : read % RING_SIZE < RING_SIZE := Nat.mod_lt _ (by simp [RING_SIZE])
  by_cases hsplit : n ≤ RING_SIZE - read % RING_SIZE
  · rw [if_pos hsplit]
    congr 1
    refine List.map_congr_left fun i hi => ?_
    have hi2 := List.mem_range.mp hi
    congr 1
    simp only [RING_SIZE] at hsplit hi2 ⊢
    omega
  · rw [if_neg hsplit, if_pos (by omega)]
    congr 1
    conv_rhs =>
      rw [show n = (RING_SIZE - read % RING_SIZE) + (n - (RING_SIZE - read % RING_SIZE)) by
        omega]
      rw [List.range_add, List.map_append, List.map_map]
    congr 1
    · refine List.map_congr_left fun i hi => ?_
      have hi2 := List.mem_range.mp hi
      congr 1
      simp only [RING_SIZE] at hi2 ⊢
      omega
    · refine List.map_congr_left fun j hj => ?_
      have hj2 := List.mem_range.mp hj
      simp only [Function.comp]
      congr 1
      simp only [RING_SIZE] at hj2 hn hsplit ⊢
      omega

/-- C5: `RRProfEventRingBuffer::read` with an output slice of capacity ≥ 1
(under the ring invariants `read_index ≤ write_index_cache ≤ write_index <
2^64` and `write_index − read_index ≤ 65536`) returns
`n = min(available, out.len())` where `available = write_index −
read_index`, refreshing the cached write index from the writer block
exactly when the cached value yields `available = 0`; it copies the `n`
events at slots `(read_index + i) & MASK` (split across the wrap boundary
when needed) and stores `read_index + n`; in particular it returns 0,
without blocking, when nothing is available. -/
theorem ringBuffer_read_contract {α : Type} (s : RingState α) (outLen : Nat)
    (hout : 1 ≤ outLen)
    (hc : s.read_index ≤ s.write_index_cache)
    (hw : s.write_index_cache ≤ s.writer_write_index)
    (hwi : s.writer_write_index < 2 ^ 64)
    (havail : s.writer_write_index - s.read_index ≤ RING_SIZE) :
    ∃ n copied s1, ringRead s outLen = some (n, copied, s1) ∧
      n = min ((if s.write_index_cache = s.read_index then s.writer_write_index
        else s.write_index_cache) - s.read_index) outLen ∧
      copied = (List.range n).map (fun i => s.buffer ((s.read_index + i) % RING_SIZE)) ∧
      s1.read_index = s.read_index + n ∧
      s1.write_index_cache = (if s.write_index_cache = s.read_index then s.writer_write_index
        else s.write_index_cache) ∧
      s1.writer_write_index = s.writer_write_index ∧
      s1.buffer = s.buffer := by
  have hri : s.read_index < 2 ^ 64 := lt_of_le_of_lt (hc.trans hw) hwi
  have hcache : (s.write_index_cache + 2 ^ 64 - s.read_index) % 2 ^ 64 =
      s.write_index_cache - s.read_index := by omega
  have hwrit : (s.writer_write_index + 2 ^ 64 - s.read_index) % 2 ^ 64 =
      s.writer_write_index - s.read_index := by omega
  set w := if s.write_index_cache = s.read_index then s.writer_write_index
    else s.write_index_cache with hwdef
  have hwle : s.read_index ≤ w := by
    rw [hwdef]; split <;> omega
  have hwlt : w ≤ s.writer_write_index := by
    rw [hwdef]; split <;> omega
  have hn : min (w - s.read_index) outLen ≤ RING_SIZE := by
    have : w - s.read_index ≤ RING_SIZE := by omega
    omega
  have hbody : ringRead s outLen =
      ((if min (w - s.read_index) outLen ≤ RING_SIZE - s.read_index % RING_SIZE then
        some ((List.range (min (w - s.read_index) outLen)).map
          fun i => s.buffer (s.read_index % RING_SIZE + i))
      else if min (w - s.read_index) outLen - (RING_SIZE - s.read_index % RING_SIZE)
          ≤ RING_SIZE then
        some ((List.range (RING_SIZE - s.read_index % RING_SIZE)).map
            (fun i => s.buffer (s.read_index % RING_SIZE + i)) ++
          (List.range (min (w - s.read_index) outLen
            - (RING_SIZE - s.read_index % RING_SIZE))).map fun i => s.buffer i)
      else none).map fun c =>
        (min (w - s.read_index) outLen, c,
          { s with
            read_index := (s.read_index + min (w - s.read_index) outLen) % 2 ^ 64
            write_index_cache := w })) := by
    by_cases hcr : s.write_index_cache = s.read_index
    · have h0 : (s.write_index_cache + 2 ^ 64 - s.read_index) % 2 ^ 64 = 0 := by omega
      rw [hwdef, if_pos hcr]
      simp only [ringRead]
      rw [if_pos h0, hwrit]
    · have h0 : ¬ (s.write_index_cache + 2 ^ 64 - s.read_index) % 2 ^ 64 = 0 := by omega
      rw [hwdef, if_neg hcr]
      simp only [ringRead]
      rw [if_neg h0, hcache]
  rw [hbody, ring_copied_eq _ _ _ hn]
  refine ⟨min (w - s.read_index) outLen, _, _, rfl, rfl, rfl, ?_, rfl, rfl, rfl⟩
  simp only
  have : s.read_index + min (w - s.read_index) outLen < 2 ^ 64 := by omega
  exact Nat.mod_eq_of_lt this

/-- Witness for C5: a four-slot... a concrete ring (identity slot
contents) with `read_index = 1`, a stale cache equal to it and
`write_index = 3`: the read refreshes the cache, returns 2 events and
stores `read_index = 3`. -/
theorem ringBuffer_read_contract_witness :
    ∃ n copied s1,
      ringRead (⟨fun i => i, 3, 1, 1⟩ : RingState Nat) 2 = some (n, copied, s1) ∧
      n = min ((if (1 : Nat) = 1 then 3 else 1) - 1) 2 ∧
      copied = (List.range n).map (fun i => (fun i => i) ((1 + i) % RING_SIZE)) ∧
      s1.read_index = 1 + n ∧
      s1.write_index_cache = (if (1 : Nat) = 1 then 3 else 1) ∧
      s1.writer_write_index = 3 ∧
      s1.buffer = fun i => i := by
  have h := ringBuffer_read_contract (⟨fun i => i, 3, 1, 1⟩ : RingState Nat) 2
    (by norm_num) (by norm_num) (by norm_num) (by norm_num) (by norm_num [RING_SIZE])
  simpa using h

/-! ### List helpers for the slot-recycler proofs -/

theorem heapPush_mem (x a : Nat) : ∀ l : List Nat, a ∈ heapPush x l ↔ a = x ∨ a ∈ l
  | [] => by simp [heapPush]
  | y :: ys => by
    rw [heapPush]
    by_cases h : x ≤ y
    · rw [if_pos h]
      simp
    · rw [if_neg h, List.mem_cons, heapPush_mem x a ys, List.mem_cons]
      tauto

theorem heapPush_pairwise (x : Nat) : ∀ l : List Nat, l.Pairwise (· < ·) → x ∉ l →
    (heapPush x l).Pairwise (· < ·)
  | [], _, _ => by simp [heapPush]
  | y :: ys, hp, hx => by
    rw [heapPush]
    obtain ⟨hy, hys⟩ := List.pairwise_cons.mp hp
    by_cases h : x ≤ y
    · rw [if_pos h]
      have hxy : x < y := lt_of_le_of_ne h fun he => hx (he ▸ List.mem_cons_self y ys)
      refine List.pairwise_cons.mpr ⟨?_, hp⟩
      intro b hb
      rcases List.mem_cons.mp hb with hh | hh
      · exact hh ▸ hxy
      · exact hxy.trans (hy b hh)
    · rw [if_neg h]
      refine List.pairwise_cons.mpr
        ⟨?_, heapPush_pairwise x ys hys fun hm => hx (List.mem_cons_of_mem y hm)⟩
      intro b hb
      rcases (heapPush_mem x b ys).mp hb with hh | hh
      · subst hh
        omega
      · exact hy b hh

theorem setInsert_mem (x a : Nat) : ∀ l : List Nat, a ∈ setInsert x l ↔ a = x ∨ a ∈ l
  | [] => by simp [setInsert]
  | y :: ys => by
    rw [setInsert]
    by_cases h1 : x < y
    · rw [if_pos h1]
      simp
    · rw [if_neg h1]
      by_cases h2 : x = y
      · rw [if_pos h2]
        subst h2
        simp only [List.mem_cons]
        tauto
      · rw [if_neg h2, List.mem_cons, setInsert_mem x a ys, List.mem_cons]
        tauto

theorem setInsert_pairwise (x : Nat) : ∀ l : List Nat, l.Pairwise (· < ·) →
    (setInsert x l).Pairwise (· < ·)
  | [], _ => by simp [setInsert]
  | y :: ys, hp => by
    rw [setInsert]
    obtain ⟨hy, hys⟩ := List.pairwise_cons.mp hp
    by_cases h1 : x < y
    · rw [if_pos h1]
      refine List.pairwise_cons.mpr ⟨?_, hp⟩
      intro b hb
      rcases List.mem_cons.mp hb with hh | hh
      · exact hh ▸ h1
      · exact lt_trans h1 (hy b hh)
    · rw [if_neg h1]
      by_cases h2 : x = y
      · rw [if_pos h2]
        exact hp
      · rw [if_neg h2]
        refine List.pairwise_cons.mpr ⟨?_, setInsert_pairwise x ys hys⟩
        intro b hb
        rcases (setInsert_mem x b ys).mp hb with hh | hh
        · subst hh
          omega
        · exact hy b hh

theorem pairwise_lt_nodup {l : List Nat} (h : l.Pairwise (· < ·)) : l.Nodup :=
  h.imp Nat.ne_of_lt

theorem getLast?_max : ∀ (l : List Nat), l.Pairwise (· < ·) → ∀ m, l.getLast? = some m →
    ∀ i ∈ l, i ≤ m
  | [], _, m, hm => by simp at hm
  | [x], _, m, hm => by
    simp at hm
    subst hm
    simp
  | x :: y :: ys, hp, m, hm => by
    intro i hi
    obtain ⟨hx, hys⟩ := List.pairwise_cons.mp hp
    rw [List.getLast?_cons_cons] at hm
    rcases List.mem_cons.mp hi with h | h
    · subst h
      have hym := getLast?_max (y :: ys) hys m hm y (by simp)
      exact le_of_lt (lt_of_lt_of_le (hx y (by simp)) hym)
    · exact getLast?_max (y :: ys) hys m hm i h

/-- `liveList cs`: the vertex indices of the frames not cut
(`vertex_index ≠ usize::MAX`). -/
def liveList (cs : List CallStackEntry) : List Nat :=
  (cs.filter fun f => f.vertex_index ≠ USIZE_MAX).map fun f => f.vertex_index

/-- The live indices of a `ThreadStack`. -/
def liveIdx (s : ThreadStack) : List Nat := liveList s.call_stack

/-- The slot indices pending in `ready_for_free_slot`. -/
def readyIdx (s : ThreadStack) : List Nat := s.ready_for_free_slot.map Prod.fst

theorem liveList_cons_live {f : CallStackEntry} (h : f.vertex_index ≠ USIZE_MAX)
    (cs : List CallStackEntry) : liveList (f :: cs) = f.vertex_index :: liveList cs := by
  simp [liveList, List.filter_cons, h]

theorem liveList_cons_cut {f : CallStackEntry} (h : f.vertex_index = USIZE_MAX)
    (cs : List CallStackEntry) : liveList (f :: cs) = liveList cs := by
  simp [liveList, List.filter_cons, h]

theorem liveList_all_cut (cs : List CallStackEntry) :
    liveList (cs.map fun f => { f with vertex_index := USIZE_MAX }) = [] := by
  induction cs with
  | nil => rfl
  | cons f rest ih => simpa [liveList, List.filter_cons] using ih

theorem liveList_all_live : ∀ cs : List CallStackEntry,
    (∀ f ∈ cs, f.vertex_index ≠ USIZE_MAX) →
    liveList cs = cs.map fun f => f.vertex_index
  | [], _ => rfl
  | f :: rest, h => by
    rw [liveList_cons_live (h f (by simp)) rest, List.map_cons,
      liveList_all_live rest fun g hg => h g (List.mem_cons_of_mem f hg)]

/-! ### drainDepth / drainReady characterizations -/

theorem drainDepth_fst (now : Nat) : ∀ (fd : List (Nat × Nat)) (vcd : List Nat),
    (drainDepth now fd vcd).1 = fd.dropWhile fun e => e.2 + VISIBLE_DURATION < now
  | [], vcd => rfl
  | (d, ex) :: rest, vcd => by
    rw [drainDepth, List.dropWhile_cons]
    simp only [decide_eq_true_eq]
    by_cases h : ex + VISIBLE_DURATION < now
    · rw [if_pos h, if_pos h]
      exact drainDepth_fst now rest (vcd.erase d)
    · rw [if_neg h, if_neg h]

theorem drainDepth_count (now : Nat) : ∀ (fd : List (Nat × Nat)) (vcd : List Nat) (d : Nat),
    (drainDepth now fd vcd).2.count d =
      vcd.count d -
        (((fd.takeWhile fun e => e.2 + VISIBLE_DURATION < now).filter
          fun e => e.1 = d).length)
  | [], vcd, d => by simp [drainDepth]
  | (d0, ex) :: rest, vcd, d => by
    rw [drainDepth, List.takeWhile_cons]
    simp only [decide_eq_true_eq]
    by_cases h : ex + VISIBLE_DURATION < now
    · rw [if_pos h, if_pos h]
      rw [drainDepth_count now rest (vcd.erase d0) d, List.filter_cons]
      simp only [decide_eq_true_eq]
      by_cases hd : d0 = d
      · subst hd
        rw [if_pos rfl, List.count_erase_self, List.length_cons]
        omega
      · rw [if_neg hd, List.count_erase_of_ne (Ne.symm hd)]
    · rw [if_neg h, if_neg h]
      simp

theorem drainReady_unfold (t : Nat) : ∀ (rd : List (Nat × Nat)) (free used : List Nat),
    drainReady t rd free used =
      (rd.dropWhile fun e => e.2 + VISIBLE_DURATION < t,
        (rd.takeWhile fun e => e.2 + VISIBLE_DURATION < t).foldl
          (fun f e => heapPush e.1 f) free,
        (rd.takeWhile fun e => e.2 + VISIBLE_DURATION < t).foldl
          (fun u e => u.erase e.1) used)
  | [], free, used => rfl
  | (i, ex) :: rest, free, used => by
    rw [drainReady, List.dropWhile_cons, List.takeWhile_cons]
    simp only [decide_eq_true_eq]
    by_cases h : ex + VISIBLE_DURATION < t
    · rw [if_pos h, if_pos h, if_pos h]
      rw [drainReady_unfold t rest (heapPush i free) (used.erase i)]
      simp
    · rw [if_neg h, if_neg h, if_neg h]
      simp

/-- A time-sorted FIFO's expired entries form exactly its `takeWhile`
prefix. -/
theorem takeWhile_expired_eq_filter (bound : Nat) :
    ∀ l : List (Nat × Nat), l.Pairwise (fun e1 e2 => e1.2 ≤ e2.2) →
    (l.takeWhile fun e => e.2 + VISIBLE_DURATION < bound) =
      l.filter (fun e => e.2 + VISIBLE_DURATION < bound) ∧
    (l.dropWhile fun e => e.2 + VISIBLE_DURATION < bound) =
      l.filter (fun e => ¬ (e.2 + VISIBLE_DURATION < bound))
  | [], _ => by simp
  | e :: rest, hp => by
    obtain ⟨he, hrest⟩ := List.pairwise_cons.mp hp
    obtain ⟨ih1, ih2⟩ := takeWhile_expired_eq_filter bound rest hrest
    rw [List.takeWhile_cons, List.dropWhile_cons, List.filter_cons, List.filter_cons]
    simp only [decide_eq_true_eq]
    by_cases h : e.2 + VISIBLE_DURATION < bound
    · simp only [if_pos h, if_neg (not_not_intro h)]
      exact ⟨by rw [ih1], by rw [ih2]⟩
    · have hall : ∀ e1 ∈ rest, ¬ (e1.2 + VISIBLE_DURATION < bound) := by
        intro e1 h1
        have := he e1 h1
        omega
      simp only [if_neg h, if_pos h]
      constructor
      · symm
        rw [List.filter_eq_nil_iff]
        intro a ha
        simpa using hall a ha
      · congr 1
        symm
        rw [List.filter_eq_self]
        intro a ha
        simpa using hall a ha

theorem mem_foldl_heapPush (i : Nat) :
    ∀ (l : List (Nat × Nat)) (free : List Nat),
    (i ∈ free ∨ i ∈ l.map Prod.fst) →
    i ∈ l.foldl (fun f e => heapPush e.1 f) free
  | [], free, h => by simpa using h
  | e :: rest, free, h => by
    rw [List.foldl_cons]
    refine mem_foldl_heapPush i rest (heapPush e.1 free) ?_
    rcases h with h | h
    · exact Or.inl ((heapPush_mem e.1 i free).mpr (Or.inr h))
    · rw [List.map_cons] at h
      rcases List.mem_cons.mp h with h1 | h1
      · exact Or.inl ((heapPush_mem e.1 i free).mpr (Or.inl h1))
      · exact Or.inr h1

theorem foldl_erase_sublist : ∀ (l : List (Nat × Nat)) (used : List Nat),
    (l.foldl (fun u e => u.erase e.1) used).Sublist used
  | [], used => List.Sublist.refl used
  | e :: rest, used => by
    rw [List.foldl_cons]
    exact (foldl_erase_sublist rest (used.erase e.1)).trans (List.erase_sublist e.1 used)

theorem not_mem_foldl_erase (i : Nat) :
    ∀ (l : List (Nat × Nat)) (used : List Nat),
    used.Nodup → i ∈ l.map Prod.fst →
    i ∉ l.foldl (fun u e => u.erase e.1) used
  | [], used, _, h => by simp at h
  | e :: rest, used, hnd, h => by
    rw [List.foldl_cons]
    by_cases hei : e.1 = i
    · subst hei
      intro hmem
      have hsub := (foldl_erase_sublist rest (used.erase e.1)).subset hmem
      rcases (List.Nodup.mem_erase_iff hnd).mp hsub with ⟨hne, _⟩
      exact hne rfl
    · have h1 : i ∈ rest.map Prod.fst := by
        rw [List.map_cons] at h
        rcases List.mem_cons.mp h with h1 | h1
        · exact absurd h1.symm hei
        · exact h1
      exact not_mem_foldl_erase i rest (used.erase e.1) (hnd.erase e.1) h1

/-- C2 (counterexample): from a fresh `TraceState`, a frame enters at 0 and
exits at `T = 10`; a later no-op event moves `base_time` to
`30000000011 > T + VISIBLE_DURATION`, and `TraceState::sync` runs.  The
frame's depth is indeed no longer counted (`visible_call_depth = []`), but
its slot is **not** in `free_slot` (which stays `[]`): it still sits in
`ready_for_free_slot`, because `sync` never calls `sync_free_slot`. -/
theorem visibility_eviction_cex :
    ((((TraceState.new 268435456).process_events
        [⟨0, .call, 1⟩, ⟨10, .ret, 1⟩, ⟨30000000011, .threadStart, 0⟩]).bind
      TraceState.sync).map fun ts => (ts.threadOf 0).map fun st =>
        (st.free_slot, st.ready_for_free_slot, st.visible_call_depth)) =
      some (some ([], [(0, 10)], [])) ∧
    10 + VISIBLE_DURATION < 30000000011 :=
  ⟨rfl, by norm_num [VISIBLE_DURATION]⟩

/-- C2 (amended): after `ThreadStack::sync(now)` the depth of every frame
closed at a time `T` with `T + VISIBLE_DURATION < now` is no longer
counted in `visible_call_depth` (the expired prefix of the time-sorted
`free_depth` FIFO is drained, one count per entry) — but `sync` leaves
`free_slot`, `ready_for_free_slot` and `used_slot` untouched; the slot of
such a frame is moved into `free_slot` (and out of `used_slot`) only by
the next `sync_free_slot` — i.e. the next `enter` or `resume_all` — at a
time `t` with `T + VISIBLE_DURATION < t`. -/
theorem visibility_eviction_amended (s : ThreadStack) (now t : Nat) (s2 : ThreadStack)
    (hsync : s.sync now = some s2) :
    (s2.free_slot = s.free_slot ∧ s2.ready_for_free_slot = s.ready_for_free_slot ∧
      s2.used_slot = s.used_slot ∧ s2.call_stack = s.call_stack) ∧
    (s.free_depth.Pairwise (fun e1 e2 => e1.2 ≤ e2.2) →
      s2.free_depth = s.free_depth.filter (fun e => ¬ (e.2 + VISIBLE_DURATION < now)) ∧
      ∀ d, s2.visible_call_depth.count d =
        s.visible_call_depth.count d -
          ((s.free_depth.filter fun e => e.2 + VISIBLE_DURATION < now).filter
            fun e => e.1 = d).length) ∧
    (s.ready_for_free_slot.Pairwise (fun e1 e2 => e1.2 ≤ e2.2) →
      s.used_slot.Nodup →
      ∀ i T, (i, T) ∈ s.ready_for_free_slot → T + VISIBLE_DURATION < t →
        i ∈ (s.sync_free_slot t).free_slot ∧ i ∉ (s.sync_free_slot t).used_slot) := by
  rw [ThreadStack.sync, Option.map_eq_some'] at hsync
  obtain ⟨v2, hv2, hs2⟩ := hsync
  subst hs2
  refine ⟨⟨rfl, rfl, rfl, rfl⟩, fun hsorted => ?_, fun hrsorted hundup i T hmem hexp => ?_⟩
  · constructor
    · show (drainDepth now s.free_depth s.visible_call_depth).1 = _
      rw [drainDepth_fst, (takeWhile_expired_eq_filter now s.free_depth hsorted).2]
    · intro d
      show (drainDepth now s.free_depth s.visible_call_depth).2.count d = _
      rw [drainDepth_count, (takeWhile_expired_eq_filter now s.free_depth hsorted).1]
  · have hpre : (i, T) ∈ s.ready_for_free_slot.takeWhile
        fun e => e.2 + VISIBLE_DURATION < t := by
      rw [(takeWhile_expired_eq_filter t s.ready_for_free_slot hrsorted).1]
      rw [List.mem_filter]
      exact ⟨hmem, by simpa using hexp⟩
    have hidx : i ∈ (s.ready_for_free_slot.takeWhile
        fun e => e.2 + VISIBLE_DURATION < t).map Prod.fst :=
      List.mem_map.mpr ⟨(i, T), hpre, rfl⟩
    constructor
    · show i ∈ (drainReady t s.ready_for_free_slot s.free_slot s.used_slot).2.1
      rw [drainReady_unfold]
      exact mem_foldl_heapPush i _ s.free_slot (Or.inr hidx)
    · show i ∉ (drainReady t s.ready_for_free_slot s.free_slot s.used_slot).2.2
      rw [drainReady_unfold]
      exact not_mem_foldl_erase i _ s.used_slot hundup hidx

/-- Witness for C2 (amended): a stack whose only frame closed at `T = 10`,
synced and drained at `30000000011 > T + VISIBLE_DURATION`. -/
theorem visibility_eviction_amended_witness :
    0 ∈ ((ThreadStack.mk [] (GpuSyncVec.new CallBox 0 CALLBOX_SIZE) [(0, 10)] [] [0] [0]
      [(0, 10)]).sync_free_slot 30000000011).free_slot ∧
    0 ∉ ((ThreadStack.mk [] (GpuSyncVec.new CallBox 0 CALLBOX_SIZE) [(0, 10)] [] [0] [0]
      [(0, 10)]).sync_free_slot 30000000011).used_slot :=
  (visibility_eviction_amended
    (ThreadStack.mk [] (GpuSyncVec.new CallBox 0 CALLBOX_SIZE) [(0, 10)] [] [0] [0] [(0, 10)])
    30000000011 30000000011
    (ThreadStack.mk [] (GpuSyncVec.new CallBox 0 CALLBOX_SIZE) [(0, 10)] [] [0] []
      [])
    (by decide)).2.2 (by decide) (by decide) 0 10 (by decide) (by decide)

/-! ### The slot-recycler invariant (C4) -/

/-- The per-thread invariant maintained by the slot recycler, indexed by a
step budget `a` (each processed event raises it by one): stack and vertex
sizes are budget-bounded, `used_slot` is a set of valid indices, the free
heap is disjoint from both the used set and the pending FIFO, and the live
frames (those not cut to `usize::MAX`) hold distinct used slots that are
not pending. -/
structure StackInv (s : ThreadStack) (a : Nat) : Prop where
  cs_len : s.call_stack.length ≤ a
  verts_len : s.vertices.data.length ≤ a * a
  used_sorted : s.used_slot.Pairwise (· < ·)
  used_lt : ∀ i ∈ s.used_slot, i < s.vertices.data.length
  free_sorted : s.free_slot.Pairwise (· < ·)
  free_used : ∀ i ∈ s.free_slot, i ∉ s.used_slot
  free_ready : ∀ i ∈ s.free_slot, i ∉ readyIdx s
  free_max : ∀ i ∈ s.free_slot, i < USIZE_MAX
  ready_nodup : (readyIdx s).Nodup
  ready_used : ∀ i ∈ readyIdx s, i ∈ s.used_slot
  live_nodup : (liveIdx s).Nodup
  live_used : ∀ i ∈ liveIdx s, i ∈ s.used_slot
  live_ready : ∀ i ∈ liveIdx s, i ∉ readyIdx s

theorem StackInv.mono {s : ThreadStack} {a b : Nat} (h : StackInv s a) (hab : a ≤ b) :
    StackInv s b :=
  { h with
    cs_len := h.cs_len.trans hab
    verts_len := h.verts_len.trans (Nat.mul_le_mul hab hab) }

theorem StackInv.new (maxBufferSize a : Nat) : StackInv (ThreadStack.new maxBufferSize) a := by
  constructor <;> simp [ThreadStack.new, GpuSyncVec.new, readyIdx, liveIdx, liveList]

/-- Preservation of the invariant components through the
`ready_for_free_slot` drain loop. -/
theorem drainReady_inv (t : Nat) (live : List Nat) (len : Nat) :
    ∀ (rd : List (Nat × Nat)) (free used : List Nat),
    used.Pairwise (· < ·) → (∀ i ∈ used, i < len) →
    free.Pairwise (· < ·) → (∀ i ∈ free, i ∉ used) → (∀ i ∈ free, i ∉ rd.map Prod.fst) →
    (rd.map Prod.fst).Nodup → (∀ i ∈ rd.map Prod.fst, i ∈ used) →
    (∀ i ∈ live, i ∈ used) → (∀ i ∈ live, i ∉ rd.map Prod.fst) →
    (drainReady t rd free used).2.2.Pairwise (· < ·) ∧
    (∀ i ∈ (drainReady t rd free used).2.2, i < len) ∧
    (drainReady t rd free used).2.1.Pairwise (· < ·) ∧
    (∀ i ∈ (drainReady t rd free used).2.1, i ∉ (drainReady t rd free used).2.2) ∧
    (∀ i ∈ (drainReady t rd free used).2.1,
      i ∉ (drainReady t rd free used).1.map Prod.fst) ∧
    ((drainReady t rd free used).1.map Prod.fst).Nodup ∧
    (∀ i ∈ (drainReady t rd free used).1.map Prod.fst,
      i ∈ (drainReady t rd free used).2.2) ∧
    (∀ i ∈ live, i ∈ (drainReady t rd free used).2.2) ∧
    (∀ i ∈ live, i ∉ (drainReady t rd free used).1.map Prod.fst) ∧
    (∀ i ∈ (drainReady t rd free used).2.1, i ∈ free ∨ i ∈ rd.map Prod.fst) ∧
    (drainReady t rd free used).2.2.Sublist used
  | [], free, used => by
    intro h1 h2 h3 h4 h5 h6 h7 h8 h9
    rw [drainReady]
    exact ⟨h1, h2, h3, h4, by simp, by simp, by simp, h8, by simp,
      fun i hi => Or.inl hi, List.Sublist.refl used⟩
  | (i0, ex) :: rest, free, used => by
    intro h1 h2 h3 h4 h5 h6 h7 h8 h9
    rw [drainReady]
    by_cases h : ex + VISIBLE_DURATION < t
    · rw [if_pos h]
      have hmem0 : i0 ∈ ((i0, ex) :: rest).map Prod.fst := by simp
      have hi0free : i0 ∉ free := fun hm => h5 i0 hm hmem0
      have hi0rest : i0 ∉ rest.map Prod.fst := by
        rw [List.map_cons] at h6
        exact (List.nodup_cons.mp h6).1
      have hund : used.Nodup := pairwise_lt_nodup h1
      have key := drainReady_inv t live len rest (heapPush i0 free) (used.erase i0)
        (h1.sublist (List.erase_sublist i0 used))
        (fun i hi => h2 i ((List.erase_sublist i0 used).subset hi))
        (heapPush_pairwise i0 free h3 hi0free)
        (by
          intro x hx
          rcases (heapPush_mem i0 x free).mp hx with hh | hh
          · subst hh
            intro hmem
            exact ((hund.mem_erase_iff).mp hmem).1 rfl
          · intro hmem
            exact h4 x hh ((List.erase_sublist i0 used).subset hmem))
        (by
          intro x hx
          rcases (heapPush_mem i0 x free).mp hx with hh | hh
          · subst hh
            exact hi0rest
          · exact fun hmem => h5 x hh (by rw [List.map_cons]; exact List.mem_cons_of_mem _ hmem))
        (by
          rw [List.map_cons] at h6
          exact (List.nodup_cons.mp h6).2)
        (by
          intro x hx
          rw [List.map_cons] at h6
          refine (hund.mem_erase_iff).mpr ⟨?_, h7 x (by rw [List.map_cons]; exact List.mem_cons_of_mem _ hx)⟩
          intro hxi
          exact (List.nodup_cons.mp h6).1 (hxi ▸ hx))
        (by
          intro x hx
          refine (hund.mem_erase_iff).mpr ⟨?_, h8 x hx⟩
          intro hxi
          exact h9 x hx (hxi ▸ hmem0))
        (fun x hx hmem => h9 x hx (by rw [List.map_cons]; exact List.mem_cons_of_mem _ hmem))
      refine ⟨key.1, key.2.1, key.2.2.1, key.2.2.2.1, key.2.2.2.2.1, key.2.2.2.2.2.1,
        key.2.2.2.2.2.2.1, key.2.2.2.2.2.2.2.1, key.2.2.2.2.2.2.2.2.1, ?_,
        key.2.2.2.2.2.2.2.2.2.2.trans (List.erase_sublist i0 used)⟩
      intro x hx
      rcases key.2.2.2.2.2.2.2.2.2.1 x hx with hh | hh
      · rcases (heapPush_mem i0 x free).mp hh with h3' | h3'
        · exact Or.inr (h3' ▸ hmem0)
        · exact Or.inl h3'
      · exact Or.inr (by rw [List.map_cons]; exact List.mem_cons_of_mem _ hh)
    · rw [if_neg h]
      exact ⟨h1, h2, h3, h4, h5, h6, h7, h8, h9, fun i hi => Or.inl hi,
        List.Sublist.refl used⟩

theorem sync_free_slot_eq (s : ThreadStack) (t : Nat) :
    s.sync_free_slot t =
      { s with
        ready_for_free_slot := (drainReady t s.ready_for_free_slot s.free_slot s.used_slot).1
        free_slot := (drainReady t s.ready_for_free_slot s.free_slot s.used_slot).2.1
        used_slot := (drainReady t s.ready_for_free_slot s.free_slot s.used_slot).2.2 } := rfl

theorem sync_free_slot_inv {s : ThreadStack} {a : Nat} (h : StackInv s a) (ha : a < 2 ^ 17)
    (t : Nat) : StackInv (s.sync_free_slot t) a := by
  have haa : a * a < USIZE_MAX := by
    have h2 : a * a < 2 ^ 17 * 2 ^ 17 := Nat.mul_lt_mul'' ha ha
    have : (2 : Nat) ^ 17 * 2 ^ 17 < USIZE_MAX := by norm_num [USIZE_MAX]
    omega
  have key := drainReady_inv t (liveIdx s) s.vertices.data.length s.ready_for_free_slot
    s.free_slot s.used_slot h.used_sorted h.used_lt h.free_sorted h.free_used h.free_ready
    h.ready_nodup h.ready_used h.live_used h.live_ready
  obtain ⟨k1, k2, k3, k4, k5, k6, k7, k8, k9, k10, k11⟩ := key
  rw [sync_free_slot_eq]
  exact
    { cs_len := h.cs_len
      verts_len := h.verts_len
      used_sorted := k1
      used_lt := k2
      free_sorted := k3
      free_used := k4
      free_ready := k5
      free_max := fun i hi => by
        rcases k10 i hi with hh | hh
        · exact h.free_max i hh
        · have hlt := h.used_lt i (h.ready_used i hh)
          have hv := h.verts_len
          omega
      ready_nodup := k6
      ready_used := k7
      live_nodup := h.live_nodup
      live_used := k8
      live_ready := k9 }

theorem allocSlot_spec (v : GpuSyncVec CallBox) (free : List Nat) (x : CallBox)
    (hfs : free.Pairwise (· < ·)) :
    v.data.length ≤ (allocSlot v free x).2.1.data.length ∧
    (allocSlot v free x).2.1.data.length ≤ v.data.length + 1 ∧
    (allocSlot v free x).1 < (allocSlot v free x).2.1.data.length ∧
    (allocSlot v free x).2.2.Pairwise (· < ·) ∧
    (∀ y ∈ (allocSlot v free x).2.2, y ∈ free) ∧
    (allocSlot v free x).1 ∉ (allocSlot v free x).2.2 ∧
    ((allocSlot v free x).1 ∈ free ∨ (allocSlot v free x).1 = v.data.length) := by
  cases free with
  | nil =>
    simp [allocSlot, GpuSyncVec.push, GpuSyncVec.len]
  | cons p rest =>
    obtain ⟨hp1, hp2⟩ := List.pairwise_cons.mp hfs
    by_cases hp : p < v.data.length
    · simp only [allocSlot, GpuSyncVec.writeAt?, if_pos hp]
      refine ⟨by simp, by simp, by simpa using hp, hp2, fun y hy => List.mem_cons_of_mem p hy,
        ?_, Or.inl (List.mem_cons_self p rest)⟩
      intro hmem
      exact absurd rfl (Nat.ne_of_lt (hp1 p hmem))
    · simp only [allocSlot, GpuSyncVec.writeAt?, if_neg hp]
      refine ⟨by simp [GpuSyncVec.push], by simp [GpuSyncVec.push, GpuSyncVec.len],
        by simp [GpuSyncVec.push, GpuSyncVec.len], hp2,
        fun y hy => List.mem_cons_of_mem p hy, ?_, Or.inr rfl⟩
      intro hmem
      have h2 := hp1 _ hmem
      simp only [GpuSyncVec.len] at h2 ⊢
      omega

theorem enter_eq (s : ThreadStack) (t mid : Nat) :
    s.enter t mid =
      { s.sync_free_slot t with
        call_stack :=
          ⟨(allocSlot (s.sync_free_slot t).vertices (s.sync_free_slot t).free_slot
            ⟨encode_time t, encode_time U64_MAX, u32cast mid,
              u32cast (s.sync_free_slot t).call_stack.length⟩).1, mid⟩ ::
            (s.sync_free_slot t).call_stack
        vertices := (allocSlot (s.sync_free_slot t).vertices (s.sync_free_slot t).free_slot
          ⟨encode_time t, encode_time U64_MAX, u32cast mid,
            u32cast (s.sync_free_slot t).call_stack.length⟩).2.1
        free_slot := (allocSlot (s.sync_free_slot t).vertices (s.sync_free_slot t).free_slot
          ⟨encode_time t, encode_time U64_MAX, u32cast mid,
            u32cast (s.sync_free_slot t).call_stack.length⟩).2.2
        used_slot := setInsert
          ((allocSlot (s.sync_free_slot t).vertices (s.sync_free_slot t).free_slot
            ⟨encode_time t, encode_time U64_MAX, u32cast mid,
              u32cast (s.sync_free_slot t).call_stack.length⟩).1)
          (s.sync_free_slot t).used_slot
        visible_call_depth := u32cast (s.sync_free_slot t).call_stack.length ::
          (s.sync_free_slot t).visible_call_depth } := rfl

theorem enter_inv {s : ThreadStack} {a : Nat} (h : StackInv s a) (ha : a < 2 ^ 17)
    (t mid : Nat) : StackInv (s.enter t mid) (a + 1) := by
  have h1 := sync_free_slot_inv h ha t
  have haa : a * a < USIZE_MAX := by
    have h2 : a * a < 2 ^ 17 * 2 ^ 17 := Nat.mul_lt_mul'' ha ha
    have : (2 : Nat) ^ 17 * 2 ^ 17 < USIZE_MAX := by norm_num [USIZE_MAX]
    omega
  rw [enter_eq]
  set s1 := s.sync_free_slot t with hs1
  set A := allocSlot s1.vertices s1.free_slot
    ⟨encode_time t, encode_time U64_MAX, u32cast mid, u32cast s1.call_stack.length⟩ with hA
  obtain ⟨k1, k2, k3, k4, k5, k6, k7⟩ := allocSlot_spec s1.vertices s1.free_slot
    ⟨encode_time t, encode_time U64_MAX, u32cast mid, u32cast s1.call_stack.length⟩
    h1.free_sorted
  rw [← hA] at k1 k2 k3 k4 k5 k6 k7
  have hidx_used : A.1 ∉ s1.used_slot := by
    rcases k7 with hh | hh
    · exact h1.free_used A.1 hh
    · intro hmem
      have := h1.used_lt A.1 hmem
      omega
  have hidx_ready : A.1 ∉ readyIdx s1 := by
    rcases k7 with hh | hh
    · exact h1.free_ready A.1 hh
    · intro hmem
      have := h1.used_lt A.1 (h1.ready_used A.1 hmem)
      omega
  have hidx_max : A.1 < USIZE_MAX := by
    rcases k7 with hh | hh
    · exact h1.free_max A.1 hh
    · have := h1.verts_len
      omega
  have hidx_ne : A.1 ≠ USIZE_MAX := Nat.ne_of_lt hidx_max
  have hlive : liveIdx { s1 with
      call_stack := (⟨A.1, mid⟩ : CallStackEntry) :: s1.call_stack
      vertices := A.2.1
      free_slot := A.2.2
      used_slot := setInsert A.1 s1.used_slot
      visible_call_depth := u32cast s1.call_stack.length :: s1.visible_call_depth } =
      A.1 :: liveIdx s1 := by
    show liveList ((⟨A.1, mid⟩ : CallStackEntry) :: s1.call_stack) = _
    rw [liveList_cons_live hidx_ne]
    rfl
  refine
    { cs_len := by simpa using Nat.succ_le_succ h1.cs_len
      verts_len := ?_
      used_sorted := setInsert_pairwise A.1 s1.used_slot h1.used_sorted
      used_lt := ?_
      free_sorted := k4
      free_used := ?_
      free_ready := fun i hi => h1.free_ready i (k5 i hi)
      free_max := fun i hi => h1.free_max i (k5 i hi)
      ready_nodup := h1.ready_nodup
      ready_used := fun i hi => (setInsert_mem A.1 i s1.used_slot).mpr
        (Or.inr (h1.ready_used i hi))
      live_nodup := ?_
      live_used := ?_
      live_ready := ?_ }
  · show A.2.1.data.length ≤ (a + 1) * (a + 1)
    have := h1.verts_len
    have hexp : (a + 1) * (a + 1) = a * a + 2 * a + 1 := by ring
    omega
  · intro i hi
    show i < A.2.1.data.length
    rcases (setInsert_mem A.1 i s1.used_slot).mp hi with hh | hh
    · exact hh ▸ k3
    · exact lt_of_lt_of_le (h1.used_lt i hh) k1
  · intro i hi hmem
    rcases (setInsert_mem A.1 i s1.used_slot).mp hmem with hh | hh
    · exact (k6 (hh ▸ hi)).elim
    · exact h1.free_used i (k5 i hi) hh
  · rw [hlive]
    refine List.nodup_cons.mpr ⟨fun hmem => hidx_used (h1.live_used A.1 hmem), h1.live_nodup⟩
  · rw [hlive]
    intro i hi
    rcases List.mem_cons.mp hi with hh | hh
    · exact (setInsert_mem A.1 i s1.used_slot).mpr (Or.inl hh)
    · exact (setInsert_mem A.1 i s1.used_slot).mpr (Or.inr (h1.live_used i hh))
  · rw [hlive]
    intro i hi
    rcases List.mem_cons.mp hi with hh | hh
    · exact hh ▸ hidx_ready
    · exact h1.live_ready i hh

theorem setEndTime?_some_length {v v1 : GpuSyncVec CallBox} {i t : Nat}
    (h : v.setEndTime? i t = some v1) : v1.data.length = v.data.length := by
  rw [GpuSyncVec.setEndTime?] at h
  rcases hg : v.data.get? i with _ | b
  · rw [hg] at h
    exact Option.noConfusion h
  · rw [hg] at h
    simp only [GpuSyncVec.writeAt?] at h
    split at h
    · injection h with h
      rw [← h]
      simp
    · exact Option.noConfusion h

theorem exitLoop_inv (t mid : Nat) : ∀ (cs : List CallStackEntry) (v : GpuSyncVec CallBox)
    (fd rd : List (Nat × Nat)) (cs' : List CallStackEntry) (v' : GpuSyncVec CallBox)
    (fd' rd' : List (Nat × Nat)),
    exitLoop t mid cs v fd rd = some (cs', v', fd', rd') →
    (liveList cs).Nodup →
    (∀ i ∈ liveList cs, i ∉ rd.map Prod.fst) →
    (rd.map Prod.fst).Nodup →
    v'.data.length = v.data.length ∧
    (liveList cs').Nodup ∧
    (∀ i ∈ liveList cs', i ∈ liveList cs) ∧
    (∀ i ∈ liveList cs', i ∉ rd'.map Prod.fst) ∧
    (rd'.map Prod.fst).Nodup ∧
    (∀ i ∈ rd'.map Prod.fst, i ∈ rd.map Prod.fst ∨ i ∈ liveList cs) ∧
    cs'.length ≤ cs.length
  | [], v, fd, rd, cs', v', fd', rd' => by
    intro hrun hln hlr hrn
    rw [exitLoop] at hrun
    simp only [Option.some.injEq, Prod.mk.injEq] at hrun
    obtain ⟨h1, h2, h3, h4⟩ := hrun
    subst h1; subst h2; subst h3; subst h4
    exact ⟨rfl, by simp [liveList], by simp [liveList], by simp [liveList], hrn,
      fun i hi => Or.inl hi, le_refl 0⟩
  | f :: rest, v, fd, rd, cs', v', fd', rd' => by
    intro hrun hln hlr hrn
    rw [exitLoop] at hrun
    by_cases hvi : f.vertex_index ≠ USIZE_MAX
    · rw [if_pos hvi] at hrun
      have hlive : liveList (f :: rest) = f.vertex_index :: liveList rest :=
        liveList_cons_live hvi rest
      rw [hlive] at hln hlr
      obtain ⟨hhead, hln1⟩ := List.nodup_cons.mp hln
      have hfr : f.vertex_index ∉ rd.map Prod.fst := hlr f.vertex_index (by simp)
      rcases hset : v.setEndTime? f.vertex_index t with _ | v1
      · rw [hset] at hrun
        exact Option.noConfusion hrun
      · rw [hset] at hrun
        dsimp only at hrun
        have hlen1 := setEndTime?_some_length hset
        have hrd1 : ((rd ++ [(f.vertex_index, t)]).map Prod.fst) =
            rd.map Prod.fst ++ [f.vertex_index] := by simp
        have hrdn1 : ((rd ++ [(f.vertex_index, t)]).map Prod.fst).Nodup := by
          rw [hrd1]
          exact List.Nodup.append hrn (List.nodup_singleton _)
            (by simpa [List.disjoint_singleton] using hfr)
        have hlr1 : ∀ i ∈ liveList rest,
            i ∉ ((rd ++ [(f.vertex_index, t)]).map Prod.fst) := by
          intro i hi
          rw [hrd1, List.mem_append]
          push_neg
          refine ⟨hlr i (List.mem_cons_of_mem _ hi), ?_⟩
          simp only [List.mem_singleton]
          exact fun he => hhead (he ▸ hi)
        by_cases hm : f.method_id = mid
        · rw [if_pos hm] at hrun
          simp only [Option.some.injEq, Prod.mk.injEq] at hrun
          obtain ⟨h1, h2, h3, h4⟩ := hrun
          subst h1; subst h2; subst h3; subst h4
          rw [hlive]
          refine ⟨hlen1, hln1, fun i hi => List.mem_cons_of_mem _ hi, hlr1, hrdn1, ?_,
            by simp⟩
          intro i hi
          rw [hrd1] at hi
          rcases List.mem_append.mp hi with hh | hh
          · exact Or.inl hh
          · rw [List.mem_singleton] at hh
            exact Or.inr (hh ▸ List.mem_cons_self _ _)
        · rw [if_neg hm] at hrun
          obtain ⟨hlenr, hnr, hsubr, hlrr, hrnr, hor, hcl⟩ := exitLoop_inv t mid rest v1
            (fd ++ [(u32cast rest.length, t)]) (rd ++ [(f.vertex_index, t)]) cs' v' fd' rd'
            hrun hln1 hlr1 hrdn1
          rw [hlive]
          refine ⟨hlenr.trans hlen1, hnr, fun i hi => List.mem_cons_of_mem _ (hsubr i hi),
            hlrr, hrnr, ?_, hcl.trans (by simp)⟩
          intro i hi
          rcases hor i hi with hh | hh
          · rw [hrd1] at hh
            rcases List.mem_append.mp hh with h2 | h2
            · exact Or.inl h2
            · rw [List.mem_singleton] at h2
              exact Or.inr (h2 ▸ List.mem_cons_self _ _)
          · exact Or.inr (List.mem_cons_of_mem _ hh)
    · rw [if_neg hvi] at hrun
      have hlive : liveList (f :: rest) = liveList rest :=
        liveList_cons_cut (not_not.mp hvi) rest
      rw [hlive] at hln hlr
      by_cases hm : f.method_id = mid
      · rw [if_pos hm] at hrun
        simp only [Option.some.injEq, Prod.mk.injEq] at hrun
        obtain ⟨h1, h2, h3, h4⟩ := hrun
        subst h1; subst h2; subst h3; subst h4
        rw [hlive]
        exact ⟨rfl, hln, fun i hi => hi, hlr, hrn, fun i hi => Or.inl hi, by simp⟩
      · rw [if_neg hm] at hrun
        obtain ⟨hlenr, hnr, hsubr, hlrr, hrnr, hor, hcl⟩ := exitLoop_inv t mid rest v
          (fd ++ [(u32cast rest.length, t)]) rd cs' v' fd' rd' hrun hln hlr hrn
        rw [hlive]
        exact ⟨hlenr, hnr, hsubr, hlrr, hrnr, hor, hcl.trans (by simp)⟩

theorem exit_inv {s : ThreadStack} {a : Nat} (h : StackInv s a) {t mid : Nat}
    {s' : ThreadStack} (hex : s.exit t mid = some s') : StackInv s' a := by
  rw [ThreadStack.exit, Option.map_eq_some'] at hex
  obtain ⟨⟨cs', v', fd', rd'⟩, hrun, hs'⟩ := hex
  subst hs'
  obtain ⟨hlen, hnr, hsub, hlr, hrn, hor, hcl⟩ := exitLoop_inv t mid s.call_stack s.vertices
    s.free_depth s.ready_for_free_slot cs' v' fd' rd' hrun h.live_nodup h.live_ready
    h.ready_nodup
  exact
    { cs_len := by
        show cs'.length ≤ a
        exact hcl.trans h.cs_len
      verts_len := by
        show v'.data.length ≤ a * a
        rw [hlen]
        exact h.verts_len
      used_sorted := h.used_sorted
      used_lt := fun i hi => by
        show i < v'.data.length
        rw [hlen]
        exact h.used_lt i hi
      free_sorted := h.free_sorted
      free_used := h.free_used
      free_ready := fun i hi hmem => by
        rcases hor i hmem with hh | hh
        · exact h.free_ready i hi hh
        · exact h.free_used i hi (h.live_used i hh)
      free_max := h.free_max
      ready_nodup := hrn
      ready_used := fun i hi => by
        rcases hor i hi with hh | hh
        · exact h.ready_used i hh
        · exact h.live_used i hh
      live_nodup := hnr
      live_used := fun i hi => h.live_used i (hsub i hi)
      live_ready := hlr }

theorem cutLoop_of_success (t : Nat) : ∀ (cs : List CallStackEntry) (v : GpuSyncVec CallBox)
    (rd : List (Nat × Nat)) (v1 : GpuSyncVec CallBox) (rd1 : List (Nat × Nat)),
    cutLoop t cs v rd = some (v1, rd1) →
    v1.data.length = v.data.length ∧
    rd1 = rd ++ cs.map (fun f => (f.vertex_index, t)) ∧
    ∀ f ∈ cs, f.vertex_index < v.data.length
  | [], v, rd, v1, rd1 => by
    intro hrun
    rw [cutLoop] at hrun
    simp only [Option.some.injEq, Prod.mk.injEq] at hrun
    obtain ⟨h1, h2⟩ := hrun
    subst h1; subst h2
    exact ⟨rfl, by simp, by simp⟩
  | f :: rest, v, rd, v1, rd1 => by
    intro hrun
    rw [cutLoop] at hrun
    rcases hset : v.setEndTime? f.vertex_index t with _ | v2
    · rw [hset] at hrun
      exact Option.noConfusion hrun
    · rw [hset] at hrun
      dsimp only at hrun
      have hlen2 := setEndTime?_some_length hset
      have hbound : f.vertex_index < v.data.length := by
        rw [GpuSyncVec.setEndTime?] at hset
        rcases hg : v.data.get? f.vertex_index with _ | b
        · rw [hg] at hset
          exact Option.noConfusion hset
        · exact List.get?_eq_some.mp hg |>.choose
      obtain ⟨k1, k2, k3⟩ := cutLoop_of_success t rest v2 (rd ++ [(f.vertex_index, t)]) v1
        rd1 hrun
      refine ⟨k1.trans hlen2, by simpa using k2, ?_⟩
      intro g hg
      rcases List.mem_cons.mp hg with hh | hh
      · exact hh ▸ hbound
      · exact hlen2 ▸ k3 g hh

theorem cut_all_inv {s : ThreadStack} {a : Nat} (h : StackInv s a) (ha : a < 2 ^ 17)
    {t : Nat} {s' : ThreadStack} (hc : s.cut_all t = some s') : StackInv s' a := by
  have haa : a * a < USIZE_MAX := by
    have h2 : a * a < 2 ^ 17 * 2 ^ 17 := Nat.mul_lt_mul'' ha ha
    have : (2 : Nat) ^ 17 * 2 ^ 17 < USIZE_MAX := by norm_num [USIZE_MAX]
    omega
  rw [ThreadStack.cut_all, Option.map_eq_some'] at hc
  obtain ⟨⟨v1, rd1⟩, hrun, hs'⟩ := hc
  subst hs'
  obtain ⟨hlen, hrd, hbound⟩ := cutLoop_of_success t s.call_stack.reverse s.vertices
    s.ready_for_free_slot v1 rd1 hrun
  have hall : ∀ f ∈ s.call_stack, f.vertex_index ≠ USIZE_MAX := by
    intro f hf
    have := hbound f (List.mem_reverse.mpr hf)
    have hv := h.verts_len
    omega
  have hvis : liveList s.call_stack = s.call_stack.map fun f => f.vertex_index :=
    liveList_all_live s.call_stack hall
  have hrevvis : liveList s.call_stack.reverse =
      s.call_stack.reverse.map fun f => f.vertex_index :=
    liveList_all_live s.call_stack.reverse fun f hf => hall f (List.mem_reverse.mp hf)
  have hrev_nodup : (s.call_stack.reverse.map fun f => f.vertex_index).Nodup := by
    rw [List.map_reverse, List.nodup_reverse, ← hvis]
    exact h.live_nodup
  have hrev_mem : ∀ i, i ∈ (s.call_stack.reverse.map fun f => f.vertex_index) ↔
      i ∈ liveIdx s := by
    intro i
    rw [liveIdx, hvis]
    constructor
    · intro hi
      obtain ⟨f, hf, hfi⟩ := List.mem_map.mp hi
      exact List.mem_map.mpr ⟨f, List.mem_reverse.mp hf, hfi⟩
    · intro hi
      obtain ⟨f, hf, hfi⟩ := List.mem_map.mp hi
      exact List.mem_map.mpr ⟨f, List.mem_reverse.mpr hf, hfi⟩
  have hrdidx : rd1.map Prod.fst =
      readyIdx s ++ s.call_stack.reverse.map fun f => f.vertex_index := by
    rw [hrd]
    simp [readyIdx, Function.comp]
  refine
    { cs_len := by simpa using h.cs_len
      verts_len := by
        show v1.data.length ≤ a * a
        rw [hlen]
        exact h.verts_len
      used_sorted := h.used_sorted
      used_lt := fun i hi => by
        show i < v1.data.length
        rw [hlen]
        exact h.used_lt i hi
      free_sorted := h.free_sorted
      free_used := h.free_used
      free_ready := fun i hi => by
        show i ∉ rd1.map Prod.fst
        rw [hrdidx]
        rw [List.mem_append]
        push_neg
        refine ⟨h.free_ready i hi, ?_⟩
        rw [hrev_mem]
        exact fun hm => h.free_used i hi (h.live_used i hm)
      free_max := h.free_max
      ready_nodup := by
        show (rd1.map Prod.fst).Nodup
        rw [hrdidx]
        refine List.Nodup.append h.ready_nodup hrev_nodup ?_
        intro i hi hm
        rw [hrev_mem] at hm
        exact h.live_ready i hm hi
      ready_used := fun i hi => by
        have hi2 : i ∈ rd1.map Prod.fst := hi
        rw [hrdidx, List.mem_append] at hi2
        rcases hi2 with hh | hh
        · exact h.ready_used i hh
        · exact h.live_used i ((hrev_mem i).mp hh)
      live_nodup := by
        show (liveList (s.call_stack.map fun f => { f with vertex_index := USIZE_MAX })).Nodup
        rw [liveList_all_cut]
        exact List.nodup_nil
      live_used := fun i hi => by
        have hi2 : i ∈ liveList (s.call_stack.map fun f =>
            { f with vertex_index := USIZE_MAX }) := hi
        rw [liveList_all_cut] at hi2
        exact absurd hi2 (List.not_mem_nil i)
      live_ready := fun i hi => by
        have hi2 : i ∈ liveList (s.call_stack.map fun f =>
            { f with vertex_index := USIZE_MAX }) := hi
        rw [liveList_all_cut] at hi2
        exact absurd hi2 (List.not_mem_nil i) }

theorem resumeLoop_cons (t : Nat) (f : CallStackEntry) (rest : List CallStackEntry) (d : Nat)
    (v : GpuSyncVec CallBox) (free used : List Nat) :
    resumeLoop t (f :: rest) d v free used =
      (({ f with vertex_index := (allocSlot v free ⟨encode_time t, encode_time U64_MAX,
            u32cast f.method_id, u32cast d⟩).1 }) ::
          (resumeLoop t rest (d + 1)
            (allocSlot v free ⟨encode_time t, encode_time U64_MAX,
              u32cast f.method_id, u32cast d⟩).2.1
            (allocSlot v free ⟨encode_time t, encode_time U64_MAX,
              u32cast f.method_id, u32cast d⟩).2.2
            (setInsert (allocSlot v free ⟨encode_time t, encode_time U64_MAX,
              u32cast f.method_id, u32cast d⟩).1 used)).1,
        (resumeLoop t rest (d + 1)
          (allocSlot v free ⟨encode_time t, encode_time U64_MAX,
            u32cast f.method_id, u32cast d⟩).2.1
          (allocSlot v free ⟨encode_time t, encode_time U64_MAX,
            u32cast f.method_id, u32cast d⟩).2.2
          (setInsert (allocSlot v free ⟨encode_time t, encode_time U64_MAX,
            u32cast f.method_id, u32cast d⟩).1 used)).2) := rfl

theorem resumeLoop_inv (t : Nat) (ready : List Nat) :
    ∀ (bl : List CallStackEntry) (d : Nat) (v : GpuSyncVec CallBox) (free used : List Nat),
    used.Pairwise (· < ·) → (∀ i ∈ used, i < v.data.length) →
    free.Pairwise (· < ·) → (∀ x ∈ free, x ∉ used) → (∀ x ∈ free, x ∉ ready) →
    (∀ x ∈ free, x < USIZE_MAX) →
    (∀ i ∈ ready, i ∈ used) →
    v.data.length + bl.length < USIZE_MAX →
    v.data.length ≤ (resumeLoop t bl d v free used).2.1.data.length ∧
    (resumeLoop t bl d v free used).2.1.data.length ≤ v.data.length + bl.length ∧
    (resumeLoop t bl d v free used).2.2.2.Pairwise (· < ·) ∧
    (∀ i ∈ (resumeLoop t bl d v free used).2.2.2,
      i < (resumeLoop t bl d v free used).2.1.data.length) ∧
    (∀ i ∈ used, i ∈ (resumeLoop t bl d v free used).2.2.2) ∧
    (resumeLoop t bl d v free used).2.2.1.Pairwise (· < ·) ∧
    (∀ x ∈ (resumeLoop t bl d v free used).2.2.1, x ∈ free) ∧
    (resumeLoop t bl d v free used).1.length = bl.length ∧
    (∀ f ∈ (resumeLoop t bl d v free used).1, f.vertex_index ≠ USIZE_MAX) ∧
    ((resumeLoop t bl d v free used).1.map fun f => f.vertex_index).Nodup ∧
    (∀ i ∈ (resumeLoop t bl d v free used).1.map fun f => f.vertex_index,
      i ∈ (resumeLoop t bl d v free used).2.2.2) ∧
    (∀ i ∈ (resumeLoop t bl d v free used).1.map fun f => f.vertex_index, i ∉ ready) ∧
    (∀ i ∈ (resumeLoop t bl d v free used).1.map fun f => f.vertex_index, i ∉ used) ∧
    (∀ x ∈ (resumeLoop t bl d v free used).2.2.1,
      x ∉ (resumeLoop t bl d v free used).2.2.2)
  | [], d, v, free, used => by
    intro h1 h2 h3 h4 h5 h6 h7 hcap
    rw [resumeLoop]
    exact ⟨le_refl _, by simp, h1, h2, fun i hi => hi, h3, fun x hx => hx, rfl, by simp,
      by simp, by simp, by simp, by simp, h4⟩
  | f :: rest, d, v, free, used => by
    intro h1 h2 h3 h4 h5 h6 h7 hcap
    rw [resumeLoop_cons]
    set A := allocSlot v free ⟨encode_time t, encode_time U64_MAX,
      u32cast f.method_id, u32cast d⟩ with hA
    obtain ⟨a1, a2, a3, a4, a5, a6, a7⟩ := allocSlot_spec v free
      ⟨encode_time t, encode_time U64_MAX, u32cast f.method_id, u32cast d⟩ h3
    rw [← hA] at a1 a2 a3 a4 a5 a6 a7
    have hidx_used : A.1 ∉ used := by
      rcases a7 with hh | hh
      · exact h4 A.1 hh
      · intro hmem
        have := h2 A.1 hmem
        omega
    have hidx_ready : A.1 ∉ ready := by
      rcases a7 with hh | hh
      · exact h5 A.1 hh
      · intro hmem
        have := h2 A.1 (h7 A.1 hmem)
        omega
    have hidx_max : A.1 < USIZE_MAX := by
      rcases a7 with hh | hh
      · exact h6 A.1 hh
      · simp only [List.length_cons] at hcap
        omega
    have r2 : ∀ i ∈ setInsert A.1 used, i < A.2.1.data.length := by
      intro i hi
      rcases (setInsert_mem A.1 i used).mp hi with hh | hh
      · exact hh ▸ a3
      · exact lt_of_lt_of_le (h2 i hh) a1
    have r4 : ∀ x ∈ A.2.2, x ∉ setInsert A.1 used := by
      intro x hx hmem
      rcases (setInsert_mem A.1 x used).mp hmem with hh | hh
      · exact a6 (hh ▸ hx)
      · exact h4 x (a5 x hx) hh
    have r8 : A.2.1.data.length + rest.length < USIZE_MAX := by
      simp only [List.length_cons] at hcap
      omega
    obtain ⟨k1, k2, k3, k4, k5, k6, k7, k8, k9, k10, k11, k12, k13, k14⟩ :=
      resumeLoop_inv t ready rest (d + 1) A.2.1 A.2.2 (setInsert A.1 used)
        (setInsert_pairwise A.1 used h1) r2 a4 r4 (fun x hx => h5 x (a5 x hx))
        (fun x hx => h6 x (a5 x hx))
        (fun i hi => (setInsert_mem A.1 i used).mpr (Or.inr (h7 i hi))) r8
    refine ⟨a1.trans k1, ?_, k3, k4, ?_, k6, fun x hx => a5 x (k7 x hx), ?_, ?_, ?_, ?_,
      ?_, ?_, k14⟩
    · simp only [List.length_cons]
      omega
    · intro i hi
      exact k5 i ((setInsert_mem A.1 i used).mpr (Or.inr hi))
    · simp only [List.length_cons, k8]
    · intro g hg
      rcases List.mem_cons.mp hg with hh | hh
      · rw [hh]
        exact Nat.ne_of_lt hidx_max
      · exact k9 g hh
    · rw [List.map_cons]
      refine List.nodup_cons.mpr ⟨?_, k10⟩
      intro hmem
      exact k13 A.1 hmem ((setInsert_mem A.1 A.1 used).mpr (Or.inl rfl))
    · intro i hi
      rw [List.map_cons] at hi
      rcases List.mem_cons.mp hi with hh | hh
      · exact hh ▸ k5 A.1 ((setInsert_mem A.1 A.1 used).mpr (Or.inl rfl))
      · exact k11 i hh
    · intro i hi
      rw [List.map_cons] at hi
      rcases List.mem_cons.mp hi with hh | hh
      · exact hh ▸ hidx_ready
      · exact k12 i hh
    · intro i hi
      rw [List.map_cons] at hi
      rcases List.mem_cons.mp hi with hh | hh
      · exact hh ▸ hidx_used
      · intro hmem
        exact k13 i hh ((setInsert_mem A.1 i used).mpr (Or.inr hmem))

theorem resume_all_eq (s : ThreadStack) (t : Nat) :
    s.resume_all t =
      { s.sync_free_slot t with
        call_stack := (resumeLoop t (s.sync_free_slot t).call_stack.reverse 0
          (s.sync_free_slot t).vertices (s.sync_free_slot t).free_slot
          (s.sync_free_slot t).used_slot).1.reverse
        vertices := (resumeLoop t (s.sync_free_slot t).call_stack.reverse 0
          (s.sync_free_slot t).vertices (s.sync_free_slot t).free_slot
          (s.sync_free_slot t).used_slot).2.1
        free_slot := (resumeLoop t (s.sync_free_slot t).call_stack.reverse 0
          (s.sync_free_slot t).vertices (s.sync_free_slot t).free_slot
          (s.sync_free_slot t).used_slot).2.2.1
        used_slot := (resumeLoop t (s.sync_free_slot t).call_stack.reverse 0
          (s.sync_free_slot t).vertices (s.sync_free_slot t).free_slot
          (s.sync_free_slot t).used_slot).2.2.2
        visible_call_depth := (List.range (s.sync_free_slot t).call_stack.length).foldl
          (fun acc d => u32cast d :: acc) (s.sync_free_slot t).visible_call_depth } := rfl

theorem resume_all_inv {s : ThreadStack} {a : Nat} (h : StackInv s a) (ha : a < 2 ^ 17)
    (t : Nat) : StackInv (s.resume_all t) (a + 1) := by
  have h1 := sync_free_slot_inv h ha t
  rw [resume_all_eq]
  set s1 := s.sync_free_slot t with hs1
  have hcap : s1.vertices.data.length + s1.call_stack.reverse.length < USIZE_MAX := by
    have hv := h1.verts_len
    have hc := h1.cs_len
    rw [List.length_reverse]
    have h2 : a * a + a < 2 ^ 17 * 2 ^ 17 + 2 ^ 17 :=
      Nat.add_lt_add (Nat.mul_lt_mul'' ha ha) ha
    have : (2 : Nat) ^ 17 * 2 ^ 17 + 2 ^ 17 < USIZE_MAX := by norm_num [USIZE_MAX]
    omega
  obtain ⟨k1, k2, k3, k4, k5, k6, k7, k8, k9, k10, k11, k12, k13, k14⟩ :=
    resumeLoop_inv t (readyIdx s1) s1.call_stack.reverse 0 s1.vertices s1.free_slot
      s1.used_slot h1.used_sorted h1.used_lt h1.free_sorted h1.free_used h1.free_ready
      h1.free_max h1.ready_used hcap
  set R := resumeLoop t s1.call_stack.reverse 0 s1.vertices s1.free_slot s1.used_slot
    with hR
  have hlive : liveList R.1.reverse = (R.1.map fun f => f.vertex_index).reverse := by
    rw [liveList_all_live R.1.reverse fun f hf => k9 f (List.mem_reverse.mp hf)]
    exact List.map_reverse _ _
  refine
    { cs_len := ?_
      verts_len := ?_
      used_sorted := k3
      used_lt := k4
      free_sorted := k6
      free_used := k14
      free_ready := fun x hx => h1.free_ready x (k7 x hx)
      free_max := fun x hx => h1.free_max x (k7 x hx)
      ready_nodup := h1.ready_nodup
      ready_used := fun i hi => k5 i (h1.ready_used i hi)
      live_nodup := ?_
      live_used := ?_
      live_ready := ?_ }
  · show R.1.reverse.length ≤ a + 1
    rw [List.length_reverse, k8, List.length_reverse]
    exact h1.cs_len.trans (Nat.le_succ a)
  · show R.2.1.data.length ≤ (a + 1) * (a + 1)
    rw [List.length_reverse] at k2
    have hv := h1.verts_len
    have hc := h1.cs_len
    have hexp : (a + 1) * (a + 1) = a * a + 2 * a + 1 := by ring
    omega
  · show (liveList R.1.reverse).Nodup
    rw [hlive, List.nodup_reverse]
    exact k10
  · intro i hi
    have hi2 : i ∈ liveList R.1.reverse := hi
    rw [hlive, List.mem_reverse] at hi2
    exact k11 i hi2
  · intro i hi
    have hi2 : i ∈ liveList R.1.reverse := hi
    rw [hlive, List.mem_reverse] at hi2
    exact k12 i hi2

theorem syncReconcile_data {T : Type} (v : GpuSyncVec T) : v.syncReconcile.data = v.data := by
  rw [GpuSyncVec.syncReconcile]
  dsimp only
  repeat split
  all_goals rfl

theorem sync_data {T : Type} {v v2 : GpuSyncVec T} (h : v.sync = some v2) :
    v2.data = v.data := by
  rw [GpuSyncVec.sync] at h
  by_cases hd : v.dirtyStart ≥ v.dirtyEnd
  · rw [if_pos hd] at h
    injection h with h2
    rw [← h2]
  · rw [if_neg hd] at h
    dsimp only at h
    rcases hgb : (GpuSyncVec.syncReconcile v).gpuBuffer with _ | ⟨b, _ | ⟨c, rest2⟩⟩ <;>
      rw [hgb] at h <;> dsimp only at h <;> split_ifs at h
    all_goals first
      | exact Option.noConfusion h
      | (injection h with h2; rw [← h2]; exact syncReconcile_data v)

theorem truncate_data {T : Type} (v : GpuSyncVec T) (l : Nat) :
    (v.truncate l).data = if l < v.data.length then v.data.take l else v.data := by
  rw [GpuSyncVec.truncate]
  by_cases h : l < v.data.length
  · rw [if_pos h, if_pos h]
  · rw [if_neg h, if_neg h]

theorem sync_inv {s : ThreadStack} {a : Nat} (h : StackInv s a) {now : Nat}
    {s2 : ThreadStack} (hs : s.sync now = some s2) : StackInv s2 a := by
  rw [ThreadStack.sync, Option.map_eq_some'] at hs
  obtain ⟨v2, hv2, hs2⟩ := hs
  subst hs2
  have hdata := sync_data hv2
  rw [truncate_data] at hdata
  have hlen2 : v2.data.length ≤ s.vertices.data.length := by
    rw [hdata]
    split
    · simp [List.length_take]
    · exact le_refl _
  have hused : ∀ i ∈ s.used_slot, i < v2.data.length := by
    intro i hi
    rw [hdata]
    split
    · rw [List.length_take]
      rcases hg : s.used_slot.getLast? with _ | m
      · rw [List.getLast?_eq_none] at hg
        rw [hg] at hi
        cases hi
      · have hle := getLast?_max s.used_slot h.used_sorted m hg i hi
        have hlt := h.used_lt i hi
        dsimp only
        omega
    · exact h.used_lt i hi
  exact
    { cs_len := h.cs_len
      verts_len := hlen2.trans h.verts_len
      used_sorted := h.used_sorted
      used_lt := hused
      free_sorted := h.free_sorted
      free_used := h.free_used
      free_ready := h.free_ready
      free_max := h.free_max
      ready_nodup := h.ready_nodup
      ready_used := h.ready_used
      live_nodup := h.live_nodup
      live_used := h.live_used
      live_ready := h.live_ready }

/-! ### TraceState-level invariant -/

def TSInv (ts : TraceState) (a : Nat) : Prop := ∀ p ∈ ts.thread_stacks, StackInv p.2 a

theorem TSInv.relax {ts : TraceState} {a b : Nat} (h : TSInv ts a) (hab : a ≤ b) :
    TSInv ts b := fun p hp => (h p hp).mono hab

theorem TSInv.init (msz a : Nat) : TSInv (TraceState.new msz) a := by
  intro p hp
  simp [TraceState.new] at hp

theorem withThread_inv {ts : TraceState} {a b : Nat} (h : TSInv ts a) (hab : a ≤ b)
    {tid : Nat} {f : ThreadStack → Option ThreadStack} {ts' : TraceState}
    (hw : ts.withThread tid f = some ts')
    (hf : ∀ st, StackInv st a → ∀ st', f st = some st' → StackInv st' b) :
    TSInv ts' b := by
  rw [TraceState.withThread, Option.map_eq_some'] at hw
  obtain ⟨st1, hf1, hts⟩ := hw
  subst hts
  have hin : StackInv ((ts.threadOf tid).getD (ThreadStack.new ts.maxBufferSize)) a := by
    rcases hlook : ts.threadOf tid with _ | st
    · simpa using StackInv.new ts.maxBufferSize a
    · show StackInv st a
      rw [TraceState.threadOf, Option.map_eq_some'] at hlook
      obtain ⟨p, hfind, hp2⟩ := hlook
      have hmem := List.mem_of_find?_eq_some hfind
      rw [← hp2]
      exact h p hmem
  have hst1 := hf _ hin st1 hf1
  intro p hp
  by_cases hany : ts.thread_stacks.any (fun p => p.1 = tid) = true
  · rw [if_pos hany] at hp
    have hp2 : p ∈ ts.thread_stacks.map fun q => if q.1 = tid then (tid, st1) else q := hp
    obtain ⟨q, hq, hqe⟩ := List.mem_map.mp hp2
    by_cases hqt : q.1 = tid
    · rw [if_pos hqt] at hqe
      rw [← hqe]
      exact hst1
    · rw [if_neg hqt] at hqe
      rw [← hqe]
      exact (h q hq).mono hab
  · rw [if_neg hany] at hp
    have hp2 : p ∈ insertAt ts.thread_stacks (sortedIdx ts.thread_stacks tid) (tid, st1) := hp
    rw [insertAt] at hp2
    rcases List.mem_append.mp hp2 with hh | hh
    · rcases List.mem_append.mp hh with h2 | h2
      · exact ((h p (List.take_subset _ _ h2)).mono hab)
      · rw [List.mem_singleton] at h2
        rw [h2]
        exact hst1
    · exact (h p (List.drop_subset _ _ hh)).mono hab

theorem step_inv {ts : TraceState} {a : Nat} (h : TSInv ts a) (ha : a < 2 ^ 17)
    {e : REvent} {ts' : TraceState} (hs : TraceState.step ts e = some ts') :
    TSInv ts' (a + 1) := by
  rw [TraceState.step] at hs
  have h1 : TSInv { ts with base_time := e.timestamp } a := h
  have h2 : TSInv { { ts with base_time := e.timestamp } with
      last_thread_id := u32cast e.data } a := h
  cases he : e.etype with
  | call =>
    rw [he] at hs
    dsimp only at hs
    exact withThread_inv h1 (Nat.le_succ a) hs fun st hst st' hst' => by
      injection hst' with h3
      rw [← h3]
      exact enter_inv hst ha e.timestamp e.data
  | ret =>
    rw [he] at hs
    dsimp only at hs
    exact withThread_inv h1 (Nat.le_succ a) hs fun st hst st' hst' =>
      (exit_inv hst hst').mono (Nat.le_succ a)
  | gcStart =>
    rw [he] at hs
    dsimp only at hs
    exact withThread_inv h1 (Nat.le_succ a) hs fun st hst st' hst' =>
      (cut_all_inv hst ha hst').mono (Nat.le_succ a)
  | gcEnd =>
    rw [he] at hs
    dsimp only at hs
    exact withThread_inv h1 (Nat.le_succ a) hs fun st hst st' hst' => by
      injection hst' with h3
      rw [← h3]
      exact resume_all_inv hst ha e.timestamp
  | threadSuspended =>
    rw [he] at hs
    dsimp only at hs
    exact withThread_inv h1 (Nat.le_succ a) hs fun st hst st' hst' =>
      (cut_all_inv hst ha hst').mono (Nat.le_succ a)
  | threadResume =>
    rw [he] at hs
    dsimp only at hs
    exact withThread_inv h2 (Nat.le_succ a) hs fun st hst st' hst' => by
      injection hst' with h3
      rw [← h3]
      exact resume_all_inv hst ha e.timestamp
  | threadExit =>
    rw [he] at hs
    dsimp only at hs
    injection hs with hs
    rw [← hs]
    exact h1.relax (Nat.le_succ a)
  | threadStart =>
    rw [he] at hs
    dsimp only at hs
    injection hs with hs
    rw [← hs]
    exact h1.relax (Nat.le_succ a)
  | threadReady =>
    rw [he] at hs
    dsimp only at hs
    injection hs with hs
    rw [← hs]
    exact h1.relax (Nat.le_succ a)

theorem process_inv : ∀ (events : List REvent) (ts : TraceState) (a : Nat),
    TSInv ts a → a + events.length ≤ 2 ^ 17 →
    ∀ ts', TraceState.process_events ts events = some ts' →
    TSInv ts' (a + events.length)
  | [], ts, a, h, hcap, ts', hp => by
    have hp2 : some ts = some ts' := hp
    injection hp2 with hp2
    rw [← hp2]
    simpa using h
  | e :: rest, ts, a, h, hcap, ts', hp => by
    rw [TraceState.process_events, List.foldlM_cons] at hp
    rcases hstep : TraceState.step ts e with _ | ts1
    · rw [hstep] at hp
      exact Option.noConfusion hp
    · rw [hstep] at hp
      have hp2 : TraceState.process_events ts1 rest = some ts' := hp
      have hstep1 := step_inv h (by simp only [List.length_cons] at hcap; omega) hstep
      have hrec := process_inv rest ts1 (a + 1) hstep1
        (by simp only [List.length_cons] at hcap; omega) ts' hp2
      have harith : a + (e :: rest).length = a + 1 + rest.length := by
        simp [List.length_cons]
        omega
      rw [harith]
      exact hrec

theorem evict_subset (base : Nat) : ∀ (ex : List (Nat × Nat))
    (ths : List (Nat × ThreadStack)) (p : Nat × ThreadStack),
    p ∈ (evictExited base ex ths).2 → p ∈ ths
  | [], ths, p => fun hp => hp
  | (tid, t0) :: rest, ths, p => by
    rw [evictExited]
    by_cases hb : base ≤ t0 + VISIBLE_DURATION
    · rw [if_pos hb]
      exact fun hp => hp
    · rw [if_neg hb]
      intro hp
      exact (List.eraseP_sublist ths).subset
        (evict_subset base rest (ths.eraseP fun p => decide (p.1 = tid)) p hp)

theorem syncStacks_inv (now a : Nat) : ∀ (l l' : List (Nat × ThreadStack)),
    syncStacks now l = some l' → (∀ p ∈ l, StackInv p.2 a) → ∀ p ∈ l', StackInv p.2 a
  | [], l', hrun, h => by
    have h2 : some ([] : List (Nat × ThreadStack)) = some l' := hrun
    injection h2 with h2
    rw [← h2]
    intro p hp
    cases hp
  | (tid, st) :: rest, l', hrun, h => by
    rw [syncStacks] at hrun
    rcases hsy : st.sync now with _ | st1
    · rw [hsy] at hrun
      exact Option.noConfusion hrun
    · rw [hsy] at hrun
      rcases hrest : syncStacks now rest with _ | rest1
      · rw [hrest] at hrun
        exact Option.noConfusion hrun
      · rw [hrest] at hrun
        have h2 : some ((tid, st1) :: rest1) = some l' := hrun
        injection h2 with h2
        rw [← h2]
        intro p hp
        rcases List.mem_cons.mp hp with hh | hh
        · rw [hh]
          exact sync_inv (h (tid, st) (List.mem_cons_self _ _)) hsy
        · exact syncStacks_inv now a rest rest1 hrest
            (fun q hq => h q (List.mem_cons_of_mem _ hq)) p hh

theorem tsSync_inv {ts : TraceState} {a : Nat} (h : TSInv ts a) {ts' : TraceState}
    (hs : ts.sync = some ts') : TSInv ts' a := by
  rw [TraceState.sync, Option.map_eq_some'] at hs
  obtain ⟨ths1, hsy, hts⟩ := hs
  subst hts
  intro p hp
  have hp2 : p ∈ ths1 := hp
  exact syncStacks_inv ts.base_time a _ ths1 hsy
    (fun q hq => h q (evict_subset ts.base_time ts.exited_threads ts.thread_stacks q hq))
    p hp2

/-- C4: refuted as stated.  Two calls cut by a `GCStart` stay on the call
stack as `usize::MAX` sentinel frames; once their slots expire and are
recycled (triggered here by the call at `t = 30000000006 > 5 +
VISIBLE_DURATION`), the call stack holds 3 frames while `used_slot` holds
1 slot, so `|call_stack| ≤ |used_slot|` fails after `process_events`
followed by `sync`, on a batch with non-decreasing timestamps. -/
theorem threadStack_invariants_cex :
    (((TraceState.process_events (TraceState.new 268435456)
          [⟨0, .call, 1⟩, ⟨0, .call, 2⟩, ⟨5, .gcStart, 0⟩, ⟨30000000006, .call, 3⟩]).bind
        TraceState.sync).bind (fun ts => ts.threadOf 0)).map
      (fun st => decide (st.call_stack.length ≤ st.used_slot.length)) = some false := by
  rfl

/-- C4 (amended): after any event batch of at most `RING_SIZE` events is
processed from a fresh state and synced, every thread stack satisfies the
claimed invariants with `|call_stack|` weakened to the number of live
(non-cut) frames: `|liveIdx| ≤ |used_slot| ≤ |vertices|`, and `used_slot`
is disjoint from the `free_slot` heap. -/
theorem threadStack_invariants_amended {events : List REvent} {msz : Nat}
    (hlen : events.length ≤ RING_SIZE) {ts1 ts2 : TraceState}
    (h1 : TraceState.process_events (TraceState.new msz) events = some ts1)
    (h2 : ts1.sync = some ts2) {tid : Nat} {st : ThreadStack}
    (hst : ts2.threadOf tid = some st) :
    (liveIdx st).length ≤ st.used_slot.length ∧
    st.used_slot.length ≤ st.vertices.data.length ∧
    ∀ i ∈ st.used_slot, i ∉ st.free_slot := by
  have h0 : TSInv (TraceState.new msz) 0 := TSInv.init msz 0
  have hcap : 0 + events.length ≤ 2 ^ 17 := by
    rw [RING_SIZE] at hlen
    omega
  have hinv1 := process_inv events (TraceState.new msz) 0 h0 hcap ts1 h1
  have hinv2 := tsSync_inv hinv1 h2
  rw [TraceState.threadOf, Option.map_eq_some'] at hst
  obtain ⟨p, hfind, hp2⟩ := hst
  have hmem := List.mem_of_find?_eq_some hfind
  have hsi : StackInv st (0 + events.length) := by
    rw [← hp2]
    exact hinv2 p hmem
  refine ⟨?_, ?_, ?_⟩
  · exact (hsi.live_nodup.subperm fun i hi => hsi.live_used i hi).length_le
  · have hnd : st.used_slot.Nodup := pairwise_lt_nodup hsi.used_sorted
    have hsub : st.used_slot ⊆ List.range st.vertices.data.length := by
      intro i hi
      rw [List.mem_range]
      exact hsi.used_lt i hi
    have hle := (hnd.subperm hsub).length_le
    simpa using hle
  · intro i hi hfree
    exact hsi.free_used i hfree hi

/-- Witness for C4 (amended): the single-call batch `[(t=1, Call, m=5)]`
processed from a fresh `TraceState` with buffer limit 64 and synced. -/
theorem threadStack_invariants_amended_witness :
    (liveIdx (ThreadStack.mk [⟨0, 5⟩]
        (GpuSyncVec.mk [⟨(1, 0), (2147483647, 4294967295), 5, 0⟩]
          18446744073709551615 0 [48] 64 24) [] [] [0] [0] [])).length ≤
      (ThreadStack.mk [⟨0, 5⟩]
        (GpuSyncVec.mk [⟨(1, 0), (2147483647, 4294967295), 5, 0⟩]
          18446744073709551615 0 [48] 64 24) [] [] [0] [0] []).used_slot.length ∧
    (ThreadStack.mk [⟨0, 5⟩]
        (GpuSyncVec.mk [⟨(1, 0), (2147483647, 4294967295), 5, 0⟩]
          18446744073709551615 0 [48] 64 24) [] [] [0] [0] []).used_slot.length ≤
      (ThreadStack.mk [⟨0, 5⟩]
        (GpuSyncVec.mk [⟨(1, 0), (2147483647, 4294967295), 5, 0⟩]
          18446744073709551615 0 [48] 64 24) [] [] [0] [0] []).vertices.data.length :=
  let h := @threadStack_invariants_amended [⟨1, .call, 5⟩] 64 (by decide)
    (TraceState.mk 64 [(0, ThreadStack.mk [⟨0, 5⟩]
        (GpuSyncVec.mk [⟨(1, 0), (2147483647, 4294967295), 5, 0⟩] 0 1 [48] 64 24)
        [] [] [0] [0] [])] 1 0 [])
    (TraceState.mk 64 [(0, ThreadStack.mk [⟨0, 5⟩]
        (GpuSyncVec.mk [⟨(1, 0), (2147483647, 4294967295), 5, 0⟩]
          18446744073709551615 0 [48] 64 24)
        [] [] [0] [0] [])] 1 0 [])
    rfl rfl 0
    (ThreadStack.mk [⟨0, 5⟩]
        (GpuSyncVec.mk [⟨(1, 0), (2147483647, 4294967295), 5, 0⟩]
          18446744073709551615 0 [48] 64 24) [] [] [0] [0] []) rfl
  ⟨h.1, h.2.1⟩

end RRTrace
